import Mathlib

/-!
# Verification of the queueing-network simulator

Shallow embedding of `QNetwork.py` (classes `Source` and `Queue`) and of the
simulation loop in `Simulator.py` (`wrapper`, `extractor`).

Modelling conventions:

* Python floats are modelled as `ℚ`.  The claims under study concern control
  flow, event ordering and exact recurrences, none of which depend on
  floating-point rounding.
* Randomness is modelled by explicit oracle tapes: every `np.random.*` call
  consumes the next value from a tape.  `np.random.choice(range(n), p)` is
  modelled by inverse-CDF selection `cdfChoice` over a uniform draw, together
  with numpy's argument validation (`npChoice`): numpy rejects negative
  probabilities and probability vectors that do not sum to 1.
* Python exceptions are modelled with `Except String`; an exception aborts the
  run (in the Python original some mutations may have happened before the
  raise, but no later observable behaviour exists in either model).
* The distribution-family dispatch (`'Exponential'` / `'Lognormal'`) only
  decides which numpy sampler produces the next increment; in the event-loop
  embedding the sampled values come from the oracle tape, so the loop is
  distribution-agnostic.  The correlated-lognormal increment computation of
  `Source.action_out` (lines 63-76 of QNetwork.py) is embedded separately as
  `sourceAdvanceLN` over a value domain with NaN, because its claims are about
  NaN/domain-error behaviour.
-/

/-- Decidable equality for `Except` (not provided by core). -/
instance exceptDecEq {ε α : Type} [DecidableEq ε] [DecidableEq α] :
    DecidableEq (Except ε α) := fun a b =>
  match a, b with
  | .ok x, .ok y =>
    if h : x = y then .isTrue (by rw [h]) else .isFalse (by simp [h])
  | .error x, .error y =>
    if h : x = y then .isTrue (by rw [h]) else .isFalse (by simp [h])
  | .ok _, .error _ => .isFalse (by simp)
  | .error _, .ok _ => .isFalse (by simp)

/-- Inverse-CDF categorical selection: the index of the outcome whose
cumulative-probability interval contains the uniform draw `u`.  This is the
selection performed by `np.random.choice(range(len p), p = p)`.  If `u` lies
beyond the total mass (impossible for a genuine uniform draw on `[0,1)` and a
vector summing to 1) the result is `p.length`. -/
def cdfChoice : List ℚ → ℚ → ℕ
  | [], _ => 0
  | p :: ps, u => if u < p then 0 else cdfChoice ps (u - p) + 1

/-- `np.random.choice(range(len p), p = p)` including numpy's validation of the
probability vector: negative entries and vectors not summing to 1 raise a
`ValueError`.  (numpy checks the sum up to a small tolerance; in `ℚ` the
station vectors `destination ++ [p_out]` sum to exactly 1, so the exact check
is equivalent for this program.) -/
def npChoice (p : List ℚ) (u : ℚ) : Except String ℕ :=
  if p.any (fun x => x < 0) then .error "probabilities are not non-negative"
  else if p.sum ≠ 1 then .error "probabilities do not sum to 1"
  else .ok (cdfChoice p u)

/-- State of the `Source` class (QNetwork.py lines 13-87).  The distribution
parameters `mu`/`sigma` and the lognormal latent normals `previous_arrival`
only feed the samplers, which are abstracted by the oracle tape (the
correlated-lognormal computation itself is embedded as `sourceAdvanceLN`
below), so they are not carried here. -/
structure Source where
  number_of_sources : ℕ
  number_of_nodes : ℕ
  source_matrix : List (List ℚ)
  /-- the heap of `(next arrival time, stream index)` pairs -/
  next_arrival : List (ℚ × ℕ)
  time_next : ℚ
  next_source : ℕ
  next_job : ℕ
  next_destination : ℕ
deriving DecidableEq

/-- Python tuple order on the `(time, stream)` pairs of the source heap. -/
def pairLe (a b : ℚ × ℕ) : Bool :=
  decide (a.1 < b.1 ∨ (a.1 = b.1 ∧ a.2 ≤ b.2))

/-- The root of a `heapq` heap: the minimum under the tuple order.
`heapq` keeps the minimum at index 0; we model the heap as a multiset (list)
and recompute the minimum.  The default for the empty heap is never used: the
code paths that read the root of an empty heap are modelled as errors. -/
def heapMin (x : ℚ × ℕ) (xs : List (ℚ × ℕ)) : ℚ × ℕ :=
  xs.foldl (fun a b => if pairLe a b then a else b) x

/-- Embeds `Source.__init__` (QNetwork.py lines 18-55). `d0 i` is the initial
interarrival draw of stream `i` (exponential or lognormal sample), `u0` the
uniform behind the initial `np.random.choice`.  Reading the root of an empty
heap (`arrival_means = []`) raises `IndexError` in Python. -/
def Source.init (arrival_means : List ℚ) (source_matrix : List (List ℚ))
    (d0 : ℕ → ℚ) (u0 : ℚ) : Except String Source :=
  let m := arrival_means.length
  let n := (source_matrix.headD []).length
  match (List.range m).map (fun i => (d0 i, i)) with
  | [] => .error "index out of range"
  | x :: xs =>
    let mn := heapMin x xs
    (npChoice (source_matrix.getD mn.2 []) u0).map (fun d =>
      { number_of_sources := m, number_of_nodes := n,
        source_matrix := source_matrix, next_arrival := x :: xs,
        time_next := mn.1, next_source := mn.2, next_job := 0,
        next_destination := d })

/-- Embeds `Source.action_out` (QNetwork.py lines 57-87) with the sampled
interarrival increment supplied by the tape `inc` (indexed by the job counter)
and the destination uniform by `u`.  `heappop` on an empty heap raises
`IndexError`.  Note the order of operations, faithful to the source: the heap
is popped and re-pushed, `next_source` is updated to the stream at the new
root, and only then is `next_destination` resampled — over the row of the NEW
`next_source`. -/
def Source.action_out (inc : ℕ → ℚ) (u : ℕ → ℚ) (t : ℚ) (s : Source) :
    Except String Source :=
  let new_time := t + inc s.next_job
  match s.next_arrival with
  | [] => .error "index out of range"
  | x :: xs =>
    let heap2 := (new_time, s.next_source) :: (x :: xs).erase (heapMin x xs)
    let mn := heapMin heap2.headI heap2.tail
    (npChoice (s.source_matrix.getD mn.2 []) (u s.next_job)).map (fun d =>
      { s with next_arrival := heap2, time_next := mn.1, next_source := mn.2,
               next_job := s.next_job + 1, next_destination := d })

/-- State of the `Queue` class (QNetwork.py lines 89-177), one per station.
`in_system` is a Python `int` (ℤ); `time_next` is `None` or a float;
`jobs_in_system` is the FCFS deque of jobs not yet in service. -/
structure Queue where
  p_out : ℚ
  destination : List ℚ
  number_of_nodes : ℕ
  mu : ℚ
  sigma : ℚ
  in_system : ℤ
  all_jobs : List ℕ
  jobs_in_system : List ℕ
  next_job : Option ℕ
  time_next : Option ℚ
  arrival_times : List ℚ
  service_times : List ℚ
  departure_times : List ℚ
  finish_time : ℚ
  next_destination : Option ℕ
deriving DecidableEq

/-- Embeds `Queue.__init__` (QNetwork.py lines 94-128), `mu`/`sigma` as in the
`'Exponential'` branch (which involves no fallible operation at all; the
`'Lognormal'` branch computes `sqrt`/`log`, which in numpy emit warnings or
NaN rather than exceptions for bad arguments).  Note: the body performs no
validation whatsoever — `p_out` is simply `1 - sum(destination)` and the mean
is stored as given. -/
def Queue.init (service_mean : ℚ) (destination : List ℚ) : Queue :=
  { p_out := 1 - destination.sum, destination := destination,
    number_of_nodes := destination.length,
    mu := service_mean, sigma := service_mean ^ 2,
    in_system := 0, all_jobs := [], jobs_in_system := [], next_job := none,
    time_next := some 0, arrival_times := [], service_times := [],
    departure_times := [], finish_time := 0, next_destination := none }

/-- Embeds `Queue.action_in` (QNetwork.py lines 130-154).  `svc i` is the
`i`-th service draw of this station (indexed by the number of service times
recorded so far); `t` is the shared clock (`Queue.time`).  The test
`if self.in_system > 1` runs after the increment, hence `1 < in_system + 1`.
In the idle branch the deque `jobs_in_system ++ [job_id]` is non-empty, so
`headD`'s default is never used (`deque.popleft`). -/
def Queue.action_in (svc : ℕ → ℚ) (t : ℚ) (job_id : ℕ) (q : Queue) : Queue :=
  if 1 < q.in_system + 1 then
    { q with in_system := q.in_system + 1,
             all_jobs := q.all_jobs ++ [job_id],
             jobs_in_system := q.jobs_in_system ++ [job_id],
             arrival_times := q.arrival_times ++ [t],
             time_next := none }
  else
    let service_new := svc q.service_times.length
    { q with in_system := q.in_system + 1,
             all_jobs := q.all_jobs ++ [job_id],
             jobs_in_system := (q.jobs_in_system ++ [job_id]).tail,
             arrival_times := q.arrival_times ++ [t],
             next_job := some ((q.jobs_in_system ++ [job_id]).headD 0),
             service_times := q.service_times ++ [service_new],
             finish_time := t + service_new,
             time_next := some (t + service_new) }

/-- Embeds `Queue.action_out` (QNetwork.py lines 156-177).  The decrement
happens first; `if self.in_system:` is Python integer truthiness (`≠ 0`);
`deque.popleft` on an empty deque raises `IndexError`; the final
`np.random.choice(range(n+1), p = destination + [p_out])` validates the
probability vector and can raise. -/
def Queue.action_out (svc : ℕ → ℚ) (u : ℚ) (t : ℚ) (q : Queue) :
    Except String Queue :=
  if q.in_system - 1 ≠ 0 then
    match q.jobs_in_system with
    | [] => .error "pop from an empty deque"
    | j :: rest =>
      let service_new := svc q.service_times.length
      let q2 := { q with in_system := q.in_system - 1, next_job := some j,
                         jobs_in_system := rest,
                         finish_time := t + service_new,
                         service_times := q.service_times ++ [service_new],
                         time_next := some (t + service_new),
                         departure_times := q.departure_times ++ [t] }
      (npChoice (q2.destination ++ [q2.p_out]) u).map
        (fun d => { q2 with next_destination := some d })
  else
    let q2 := { q with in_system := q.in_system - 1, time_next := none,
                       departure_times := q.departure_times ++ [t] }
    (npChoice (q2.destination ++ [q2.p_out]) u).map
      (fun d => { q2 with next_destination := some d })

/-- The node tag of an event in `Simulator.py`'s `events` heap: a string
`'Source'` or a station index. -/
inductive Node where
  | src : Node
  | stn : ℕ → Node
deriving DecidableEq

/-- An event `(time, job_id, node)` as pushed on the `events` heap. -/
structure Ev where
  t : ℚ
  j : ℕ
  node : Node
deriving DecidableEq

/-- A fixed rank totalising the node tie-break: the stream marker before all
station indices, station indices ascending (the `NodeRef` order of spec §4.4,
§9).  Python's own tuple comparison is *partial* here — comparing `'Source'`
with an `int` raises `TypeError` (see `pyEventLt` and claim C2); runs in which
`heapq` would raise are totalised by this rank. -/
def nodeRank : Node → ℕ
  | .src => 0
  | .stn k => k + 1

/-- The event order used by the `events` heap: time ascending, then job id,
then `nodeRank`.  Wherever Python's tuple comparison is defined it agrees with
this order. -/
def evLe (a b : Ev) : Bool :=
  decide (a.t < b.t ∨ (a.t = b.t ∧
    (a.j < b.j ∨ (a.j = b.j ∧ nodeRank a.node ≤ nodeRank b.node))))

/-- Minimum of a non-empty event list under `evLe`. -/
def evMinFold (x : Ev) (xs : List Ev) : Ev :=
  xs.foldl (fun a b => if evLe a b then a else b) x

/-- `heapq.heappop` on the events heap: returns the minimal event and the rest
of the heap; `none` models `IndexError` on an empty heap. -/
def popMin : List Ev → Option (Ev × List Ev)
  | [] => none
  | e :: es => let m := evMinFold e es; some (m, (e :: es).erase m)

/-- Python truthiness of `time_next` (`None` or a float): the guard
`if system[node].time_next:` is false for `None` and for `0.0`. -/
def truthy : Option ℚ → Bool
  | none => false
  | some x => decide (x ≠ 0)

/-- `if system[·].time_next: heapq.heappush(events, (time_next, next_job, ·))`
(Simulator.py lines 89-90 and 95-96). -/
def pushIf (tn : Option ℚ) (j : ℕ) (ν : Node) (evs : List Ev) : List Ev :=
  if truthy tn then { t := tn.getD 0, j := j, node := ν } :: evs else evs

/-- The state mutated by `wrapper`'s while-loop: the source, the stations
(`system[0..n-1]`), the pending-events heap and the shared clock. -/
structure SimState where
  src : Source
  stations : List Queue
  events : List Ev
  clock : ℚ
deriving DecidableEq

/-- The random tapes consumed by a run: `inc j` is the interarrival increment
of the `j`-th outside arrival, `srcU j` the uniform behind its destination
choice, `svc k i` the `i`-th service draw at station `k`, and `routeU k i` the
uniform behind the routing choice of station `k`'s `i`-th departure. -/
structure Oracle where
  inc : ℕ → ℚ
  srcU : ℕ → ℚ
  svc : ℕ → ℕ → ℚ
  routeU : ℕ → ℕ → ℚ

/-- Replace station `k` (out-of-range indices leave the list unchanged; the
loop only produces in-range indices, cf. `deliver`). -/
def updateStation : List Queue → ℕ → (Queue → Queue) → List Queue
  | [], _, _ => []
  | q :: qs, 0, f => f q :: qs
  | q :: qs, k + 1, f => q :: updateStation qs k f

/-- Lines 92-96 of Simulator.py: `dest = system[node].next_destination;
if dest != n: system[dest].action_in(job_id)` followed by the conditional
push of the destination's next event.  `system[dest]` for an index that is
neither a station nor `n` raises `KeyError` (unreachable from the sampled
destinations). -/
def deliver (o : Oracle) (t : ℚ) (job : ℕ) (dest : ℕ) (s : SimState) :
    Except String SimState :=
  if dest = s.stations.length then .ok s
  else
    match s.stations.get? dest with
    | none => .error "KeyError"
    | some q =>
      let q2 := q.action_in (o.svc dest) t job
      .ok { s with stations := updateStation s.stations dest (fun _ => q2),
                   events := pushIf q2.time_next (q2.next_job.getD 0)
                             (.stn dest) s.events }

/-- One iteration of `wrapper`'s while-loop (Simulator.py lines 84-96):
pop the earliest event, advance the shared clock, dispatch `action_out` on the
popped node, push its follow-up event if `time_next` is truthy, then deliver
the job to the sampled destination (unless it denotes system exit).
`next_destination.getD (n+1)` encodes the unreachable `None` case: Python
would evaluate `None != n` as true and then fail with `KeyError`. -/
def step (o : Oracle) (s : SimState) : Except String SimState :=
  match popMin s.events with
  | none => .error "index out of range"
  | some (e, rest) =>
    match e.node with
    | .src =>
      (s.src.action_out o.inc o.srcU e.t).bind (fun src2 =>
        deliver o e.t e.j src2.next_destination
          { s with src := src2, clock := e.t,
                   events := pushIf (some src2.time_next) src2.next_job
                             .src rest })
    | .stn k =>
      match s.stations.get? k with
      | none => .error "KeyError"
      | some q =>
        (q.action_out (o.svc k) (o.routeU k q.departure_times.length)
            e.t).bind (fun q2 =>
          deliver o e.t e.j (q2.next_destination.getD (s.stations.length + 1))
            { s with stations := updateStation s.stations k (fun _ => q2),
                     clock := e.t,
                     events := pushIf q2.time_next (q2.next_job.getD 0)
                               (.stn k) rest })

/-- `m` iterations of the loop body. -/
def stepN (o : Oracle) : ℕ → SimState → Except String SimState
  | 0, s => .ok s
  | m + 1, s => (step o s).bind (stepN o m)

/-- `min([len(system[i].departure_times) for i in range(n)])` — the
termination counter (0 for an empty station list; `wrapper` is only invoked
with at least one station). -/
def minDep (l : List Queue) : ℕ :=
  match l.map (fun q => q.departure_times.length) with
  | [] => 0
  | c :: cs => cs.foldl Nat.min c

/-- `wrapper`'s while-loop (Simulator.py lines 83-97), fuel-indexed: continue
while the minimum departure count over all stations is below `final_jobs`.
The Python loop checks a variable `jobs` that is 0 on entry and recomputed as
this minimum at the end of every iteration; since a fresh system has minimum
0, checking the recomputed minimum at the top is equivalent. -/
def loopSim (o : Oracle) (final_jobs : ℕ) : ℕ → SimState → Except String SimState
  | 0, _ => .error "out of fuel"
  | fuel + 1, s =>
    if minDep s.stations < final_jobs then (step o s).bind (loopSim o final_jobs fuel)
    else .ok s

/-- The static configuration handed to `wrapper` (`service_means` are stored
into each station's `mu`; the sampled values themselves come from the oracle;
`distribution` and the CoV vectors only select a sampler and are absorbed by
the oracle). -/
structure Config where
  arrival_means : List ℚ
  source_matrix : List (List ℚ)
  transition_matrix : List (List ℚ)
  service_means : List ℚ
  final_jobs : ℕ

/-- Lines 71-82 of Simulator.py: construct the source and the `n` stations
(`n = len(transition_matrix[0])`), seed the events heap with the single
initial source event `(time_next, next_job, 'Source')` (pushed
unconditionally), and zero the shared clock. -/
def initState (cfg : Config) (d0 : ℕ → ℚ) (u0 : ℚ) : Except String SimState :=
  (Source.init cfg.arrival_means cfg.source_matrix d0 u0).map (fun src =>
    let n := (cfg.transition_matrix.headD []).length
    { src := src,
      stations := (List.range n).map (fun i =>
        Queue.init (cfg.service_means.getD i 0) (cfg.transition_matrix.getD i [])),
      events := [{ t := src.time_next, j := src.next_job, node := .src }],
      clock := 0 })

/-- The whole of `wrapper`: initialise, then run the loop to the departure
target. -/
def wrapper (cfg : Config) (o : Oracle) (d0 : ℕ → ℚ) (u0 : ℚ) (fuel : ℕ) :
    Except String SimState :=
  (initState cfg d0 u0).bind (loopSim o cfg.final_jobs fuel)

/-- Number of pending events for station `k` in the events heap. -/
def countStn (k : ℕ) (evs : List Ev) : ℕ :=
  evs.countP (fun e => e.node = Node.stn k)

/-- Number of pending source events in the events heap. -/
def countSrc (evs : List Ev) : ℕ :=
  evs.countP (fun e => e.node = Node.src)

/-!
## The extractor (Simulator.py lines 101-124)
-/

/-- `extractor`'s interarrival computation:
`[arrival_times[0]] + [j-i for i, j in zip(arrival_times[:-1], arrival_times[1:])]`,
or `[]` for an empty history. -/
def interarrivalTimes : List ℚ → List ℚ
  | [] => []
  | a0 :: rest => a0 :: (List.zip (a0 :: rest) rest).map (fun p => p.2 - p.1)

/-- `extractor`'s waiting-time loop (Simulator.py lines 115-118) over the
recorded service times `s` and interarrival times `a`:
start from `[0]` and for `i` in `range(1, len(s))` append
`max(0, waiting[-1] + s[i-1] - a[i])`.  Indexing is by `getD` with default 0;
in every run produced by `wrapper`, `len(s) ≤ len(a)` holds, so the defaults
(where Python would raise `IndexError`) are never consulted. -/
def waitingTimes (s a : List ℚ) : List ℚ :=
  if s.isEmpty then []
  else
    (List.range' 1 (s.length - 1)).foldl
      (fun w i => w ++ [max 0 ((w.getLast?.getD 0) + s.getD (i - 1) 0 - a.getD i 0)])
      [0]

/-!
## Python's heap-tuple comparison (claim C2)

The events heap holds tuples `(time, job_id, node)` where `node` is either the
string `'Source'` or an `int` station index.  Python tuple comparison finds
the first component where the tuples differ under `==` (and `'Source' == k`
is `False`, without error) and compares that component with `<`; comparing a
`str` with an `int` under `<` raises `TypeError`, modelled as `none`.
-/

/-- The third tuple component: the string `'Source'` or an `int`. -/
inductive PyNode where
  | sourceStr : PyNode
  | stationInt : ℕ → PyNode
deriving DecidableEq

/-- Python `==` on the node component (heterogeneous `==` is `False`). -/
def pyNodeEq : PyNode → PyNode → Bool
  | .sourceStr, .sourceStr => true
  | .stationInt i, .stationInt j => i == j
  | _, _ => false

/-- Python `<` on the node component; `none` models the `TypeError` raised by
`str < int` / `int < str`. -/
def pyNodeLt : PyNode → PyNode → Option Bool
  | .sourceStr, .sourceStr => some false
  | .stationInt i, .stationInt j => some (decide (i < j))
  | _, _ => none

/-- An event tuple as Python sees it. -/
structure PyEvent where
  t : ℚ
  j : ℕ
  node : PyNode
deriving DecidableEq

/-- Python's `<` on event tuples, as used by `heapq` on `events`;
`none` models a raised `TypeError`. -/
def pyEventLt (a b : PyEvent) : Option Bool :=
  if a.t ≠ b.t then some (decide (a.t < b.t))
  else if a.j ≠ b.j then some (decide (a.j < b.j))
  else if pyNodeEq a.node b.node then some false
  else pyNodeLt a.node b.node

/-!
## The correlated-lognormal advance (QNetwork.py lines 63-76, claim C6)

numpy's `log`, `sqrt` and arithmetic do not raise on bad arguments: they
produce NaN (or infinities) and emit a warning.  We model the float values
flowing through this computation as `RVal`: a rational number or NaN.
Infinities (`log 0 = -inf`, division by zero) are collapsed into NaN: every
path of this computation that produces an infinity feeds it into
`sqrt(1 - rho_normal ** 2)` (giving `sqrt(-inf) = NaN`) or multiplies/adds it
with a NaN, so the observed outputs (`new_time`, the stored latent normal)
are NaN either way.  The transcendental functions on genuine numbers are
abstract parameters (`qexp`, `qlog`, `qsqrt`): the claims under study depend
only on their NaN behaviour, which is explicit here.
-/

/-- A numpy float that is either an actual number or NaN. -/
inductive RVal where
  | num : ℚ → RVal
  | nan : RVal
deriving DecidableEq

/-- NaN-propagating addition. -/
def radd : RVal → RVal → RVal
  | .num a, .num b => .num (a + b)
  | _, _ => .nan

/-- NaN-propagating subtraction. -/
def rsub : RVal → RVal → RVal
  | .num a, .num b => .num (a - b)
  | _, _ => .nan

/-- NaN-propagating multiplication (`0 * NaN` is NaN in IEEE arithmetic). -/
def rmul : RVal → RVal → RVal
  | .num a, .num b => .num (a * b)
  | _, _ => .nan

/-- Division; division by zero (an infinity or NaN in numpy) is collapsed to
NaN, see the module comment. -/
def rdiv : RVal → RVal → RVal
  | .num a, .num b => if b = 0 then .nan else .num (a / b)
  | _, _ => .nan

/-- `np.log`: NaN for a negative argument, `-inf` (collapsed to NaN, see the
module comment) for zero; no exception in either case. -/
def rlog (qlog : ℚ → ℚ) : RVal → RVal
  | .num a => if a ≤ 0 then .nan else .num (qlog a)
  | .nan => .nan

/-- `np.sqrt`: NaN for a negative argument. -/
def rsqrt (qsqrt : ℚ → ℚ) : RVal → RVal
  | .num a => if a < 0 then .nan else .num (qsqrt a)
  | .nan => .nan

/-- `np.exp`. -/
def rexp (qexp : ℚ → ℚ) : RVal → RVal
  | .num a => .num (qexp a)
  | .nan => .nan

/-- The `'Lognormal'` branch of `Source.action_out` (QNetwork.py lines
63-76): given the stream's parameters `s = sigma[next_source]`,
`m = mu[next_source]`, the correlation `rho`, the stream's stored latent
normal `last` (`previous_arrival[next_source]`), the standard-normal draw
`dummy` and the clock `time`, compute

`rho_normal = log(rho * (exp(s ** 2) - 1) + 1) / (s ** 2)`
`new_normal = rho_normal * last + sqrt(1 - rho_normal ** 2) * dummy`
`new_time   = time + exp(m + new_normal * s)`

and return `(new_time, new_normal)`; `new_normal` is stored back into
`previous_arrival[next_source]`. -/
def sourceAdvanceLN (qexp qlog qsqrt : ℚ → ℚ)
    (rho s m time last dummy : ℚ) : RVal × RVal :=
  let s2 := rmul (.num s) (.num s)
  let rho_normal := rdiv (rlog qlog
    (radd (rmul (.num rho) (rsub (rexp qexp s2) (.num 1))) (.num 1))) s2
  let new_normal := radd (rmul rho_normal (.num last))
    (rmul (rsqrt qsqrt (rsub (.num 1) (rmul rho_normal rho_normal))) (.num dummy))
  let new_lognormal := rexp qexp (radd (.num m) (rmul new_normal (.num s)))
  (radd (.num time) new_lognormal, new_normal)

/-!
## Utility lemmas
-/

theorem except_bind_ok {α β : Type} {x : Except String α} {f : α → Except String β}
    {b : β} (h : x.bind f = .ok b) : ∃ a, x = .ok a ∧ f a = .ok b := by
  cases x with
  | ok a => exact ⟨a, rfl, h⟩
  | error e => simp [Except.bind] at h

theorem except_map_ok {α β : Type} {x : Except String α} {f : α → β} {b : β}
    (h : x.map f = .ok b) : ∃ a, x = .ok a ∧ f a = b := by
  cases x with
  | ok a => exact ⟨a, rfl, by simpa [Except.map] using h⟩
  | error e => simp [Except.map] at h

theorem updateStation_length (l : List Queue) (k : ℕ) (f : Queue → Queue) :
    (updateStation l k f).length = l.length := by
  induction l generalizing k with
  | nil => rfl
  | cons q qs ih => cases k with
    | zero => rfl
    | succ k => simp [updateStation, ih]

theorem updateStation_get? (l : List Queue) (k : ℕ) (f : Queue → Queue) (i : ℕ) :
    (updateStation l k f).get? i = if i = k then (l.get? k).map f else l.get? i := by
  induction l generalizing k i with
  | nil => simp [updateStation]
  | cons q qs ih =>
    cases k with
    | zero =>
      cases i with
      | zero => simp [updateStation]
      | succ i => simp [updateStation]
    | succ k =>
      cases i with
      | zero => simp [updateStation]
      | succ i => simpa [updateStation] using ih k i

theorem evLe_total (a b : Ev) : evLe a b = true ∨ evLe b a = true := by
  simp only [evLe, decide_eq_true_eq]
  rcases lt_trichotomy a.t b.t with h | h | h
  · exact Or.inl (Or.inl h)
  · rcases lt_trichotomy a.j b.j with h2 | h2 | h2
    · exact Or.inl (Or.inr ⟨h, Or.inl h2⟩)
    · rcases Nat.le_total (nodeRank a.node) (nodeRank b.node) with h3 | h3
      · exact Or.inl (Or.inr ⟨h, Or.inr ⟨h2, h3⟩⟩)
      · exact Or.inr (Or.inr ⟨h.symm, Or.inr ⟨h2.symm, h3⟩⟩)
    · exact Or.inr (Or.inr ⟨h.symm, Or.inl h2⟩)
  · exact Or.inr (Or.inl h)

theorem evLe_trans {a b c : Ev} (h1 : evLe a b = true) (h2 : evLe b c = true) :
    evLe a c = true := by
  simp only [evLe, decide_eq_true_eq] at *
  rcases h1 with h1 | ⟨e1, h1⟩ <;> rcases h2 with h2 | ⟨e2, h2⟩
  · exact Or.inl (h1.trans h2)
  · exact Or.inl (e2 ▸ h1)
  · exact Or.inl (e1 ▸ h2)
  · refine Or.inr ⟨e1.trans e2, ?_⟩
    rcases h1 with h1 | ⟨f1, h1⟩ <;> rcases h2 with h2 | ⟨f2, h2⟩
    · exact Or.inl (h1.trans h2)
    · exact Or.inl (f2 ▸ h1)
    · exact Or.inl (f1 ▸ h2)
    · exact Or.inr ⟨f1.trans f2, h1.trans h2⟩

theorem evLe_t_le {a b : Ev} (h : evLe a b = true) : a.t ≤ b.t := by
  simp only [evLe, decide_eq_true_eq] at h
  rcases h with h | ⟨h, _⟩
  · exact le_of_lt h
  · exact le_of_eq h

theorem evMinFold_cons (x b : Ev) (bs : List Ev) :
    evMinFold x (b :: bs) = evMinFold (if evLe x b then x else b) bs := rfl

theorem evMinFold_mem (x : Ev) (xs : List Ev) : evMinFold x xs ∈ x :: xs := by
  induction xs generalizing x with
  | nil => simp [evMinFold]
  | cons b bs ih =>
    rw [evMinFold_cons]
    have h := ih (if evLe x b then x else b)
    rcases List.mem_cons.mp h with h | h
    · rw [h]
      split
      · exact List.mem_cons_self _ _
      · exact List.mem_cons_of_mem _ (List.mem_cons_self _ _)
    · exact List.mem_cons_of_mem _ (List.mem_cons_of_mem _ h)

theorem evMinFold_le (x : Ev) (xs : List Ev) :
    ∀ y ∈ x :: xs, evLe (evMinFold x xs) y = true := by
  induction xs generalizing x with
  | nil =>
    intro y hy
    have hx : y = x := List.mem_singleton.mp hy
    subst hx
    rcases evLe_total y y with h | h <;> simpa [evMinFold] using h
  | cons b bs ih =>
    intro y hy
    have key : ∀ z ∈ (if evLe x b then x else b) :: bs,
        evLe (evMinFold x (b :: bs)) z = true := by
      intro z hz
      rw [evMinFold_cons]
      exact ih (if evLe x b then x else b) z hz
    have hminx : evLe (evMinFold x (b :: bs)) (if evLe x b then x else b) = true :=
      key _ (List.mem_cons_self _ _)
    rcases List.mem_cons.mp hy with hyx | hy
    · subst hyx
      by_cases hxb : evLe y b
      · simpa [hxb] using hminx
      · rcases evLe_total y b with h | h
        · exact absurd h hxb
        · exact evLe_trans (by simpa [hxb] using hminx) h
    · rcases List.mem_cons.mp hy with hyb | hy
      · subst hyb
        by_cases hxb : evLe x y
        · exact evLe_trans (by simpa [hxb] using hminx) hxb
        · simpa [hxb] using hminx
      · exact key y (List.mem_cons_of_mem _ hy)

theorem popMin_eq_some {evs : List Ev} {e : Ev} {rest : List Ev}
    (h : popMin evs = some (e, rest)) :
    e ∈ evs ∧ evs.Perm (e :: rest) ∧ ∀ y ∈ evs, evLe e y = true := by
  cases evs with
  | nil => simp [popMin] at h
  | cons a as =>
    simp only [popMin, Option.some_inj, Prod.mk.injEq] at h
    obtain ⟨rfl, rfl⟩ := h
    have hm := evMinFold_mem a as
    exact ⟨hm, List.perm_cons_erase hm, evMinFold_le a as⟩

theorem popMin_none {evs : List Ev} (h : popMin evs = none) : evs = [] := by
  cases evs with
  | nil => rfl
  | cons a as => simp [popMin] at h

theorem pairLe_fst_le {a b : ℚ × ℕ} (h : pairLe a b = true) : a.1 ≤ b.1 := by
  simp only [pairLe, decide_eq_true_eq] at h
  rcases h with h | ⟨h, _⟩
  · exact le_of_lt h
  · exact le_of_eq h

theorem pairLe_total (a b : ℚ × ℕ) : pairLe a b = true ∨ pairLe b a = true := by
  simp only [pairLe, decide_eq_true_eq]
  rcases lt_trichotomy a.1 b.1 with h | h | h
  · exact Or.inl (Or.inl h)
  · rcases Nat.le_total a.2 b.2 with h2 | h2
    · exact Or.inl (Or.inr ⟨h, h2⟩)
    · exact Or.inr (Or.inr ⟨h.symm, h2⟩)
  · exact Or.inr (Or.inl h)

theorem pairLe_trans {a b c : ℚ × ℕ} (h1 : pairLe a b = true)
    (h2 : pairLe b c = true) : pairLe a c = true := by
  simp only [pairLe, decide_eq_true_eq] at *
  rcases h1 with h1 | ⟨e1, h1⟩ <;> rcases h2 with h2 | ⟨e2, h2⟩
  · exact Or.inl (h1.trans h2)
  · exact Or.inl (e2 ▸ h1)
  · exact Or.inl (e1 ▸ h2)
  · exact Or.inr ⟨e1.trans e2, h1.trans h2⟩

theorem heapMin_cons (x b : ℚ × ℕ) (bs : List (ℚ × ℕ)) :
    heapMin x (b :: bs) = heapMin (if pairLe x b then x else b) bs := rfl

theorem heapMin_mem (x : ℚ × ℕ) (xs : List (ℚ × ℕ)) : heapMin x xs ∈ x :: xs := by
  induction xs generalizing x with
  | nil => simp [heapMin]
  | cons b bs ih =>
    rw [heapMin_cons]
    have h := ih (if pairLe x b then x else b)
    rcases List.mem_cons.mp h with h | h
    · rw [h]
      split
      · exact List.mem_cons_self _ _
      · exact List.mem_cons_of_mem _ (List.mem_cons_self _ _)
    · exact List.mem_cons_of_mem _ (List.mem_cons_of_mem _ h)

theorem heapMin_le (x : ℚ × ℕ) (xs : List (ℚ × ℕ)) :
    ∀ y ∈ x :: xs, pairLe (heapMin x xs) y = true := by
  induction xs generalizing x with
  | nil =>
    intro y hy
    have hx : y = x := List.mem_singleton.mp hy
    subst hx
    rcases pairLe_total y y with h | h <;> simpa [heapMin] using h
  | cons b bs ih =>
    intro y hy
    have key : ∀ z ∈ (if pairLe x b then x else b) :: bs,
        pairLe (heapMin x (b :: bs)) z = true := by
      intro z hz
      rw [heapMin_cons]
      exact ih (if pairLe x b then x else b) z hz
    have hminx : pairLe (heapMin x (b :: bs)) (if pairLe x b then x else b) = true :=
      key _ (List.mem_cons_self _ _)
    rcases List.mem_cons.mp hy with hyx | hy
    · subst hyx
      by_cases hxb : pairLe y b
      · simpa [hxb] using hminx
      · rcases pairLe_total y b with h | h
        · exact absurd h hxb
        · exact pairLe_trans (by simpa [hxb] using hminx) h
    · rcases List.mem_cons.mp hy with hyb | hy
      · subst hyb
        by_cases hxb : pairLe x y
        · exact pairLe_trans (by simpa [hxb] using hminx) hxb
        · simpa [hxb] using hminx
      · exact key y (List.mem_cons_of_mem _ hy)

theorem countStn_pushIf (k : ℕ) (tn : Option ℚ) (j : ℕ) (ν : Node) (evs : List Ev) :
    countStn k (pushIf tn j ν evs)
      = countStn k evs + (if truthy tn = true ∧ ν = .stn k then 1 else 0) := by
  unfold pushIf countStn
  by_cases ht : truthy tn = true
  · by_cases hν : ν = Node.stn k
    · simp [ht, hν, List.countP_cons]
    · simp [ht, hν, List.countP_cons]
  · simp [Bool.not_eq_true] at ht
    simp [ht]

theorem countSrc_pushIf (tn : Option ℚ) (j : ℕ) (ν : Node) (evs : List Ev) :
    countSrc (pushIf tn j ν evs)
      = countSrc evs + (if truthy tn = true ∧ ν = .src then 1 else 0) := by
  unfold pushIf countSrc
  by_cases ht : truthy tn = true
  · by_cases hν : ν = Node.src
    · simp [ht, hν, List.countP_cons]
    · simp [ht, hν, List.countP_cons]
  · simp [Bool.not_eq_true] at ht
    simp [ht]

theorem countStn_perm {k : ℕ} {l1 l2 : List Ev} (h : l1.Perm l2) :
    countStn k l1 = countStn k l2 := h.countP_eq _

theorem countSrc_perm {l1 l2 : List Ev} (h : l1.Perm l2) :
    countSrc l1 = countSrc l2 := h.countP_eq _

theorem countStn_pos_of_mem {k : ℕ} {e : Ev} {evs : List Ev}
    (he : e ∈ evs) (hk : e.node = .stn k) : 0 < countStn k evs := by
  unfold countStn
  rw [List.countP_pos_iff]
  exact ⟨e, he, by simp [hk]⟩

theorem countSrc_pos_of_mem {e : Ev} {evs : List Ev}
    (he : e ∈ evs) (hk : e.node = .src) : 0 < countSrc evs := by
  unfold countSrc
  rw [List.countP_pos_iff]
  exact ⟨e, he, by simp [hk]⟩

/-!
## The Lindley recursion of the extractor (claim C4)
-/

/-- The waiting-time list after the first `m` loop iterations of
`extractor`'s waiting-time loop (so `wtPrefix s a m` has `m + 1` entries). -/
def wtPrefix (s a : List ℚ) : ℕ → List ℚ
  | 0 => [0]
  | m + 1 => wtPrefix s a m ++
      [max 0 (((wtPrefix s a m).getLast?.getD 0) + s.getD m 0 - a.getD (m + 1) 0)]

theorem wt_foldl_eq (s a : List ℚ) (m : ℕ) :
    (List.range' 1 m).foldl
      (fun w i => w ++ [max 0 ((w.getLast?.getD 0) + s.getD (i - 1) 0 - a.getD i 0)])
      [0]
    = wtPrefix s a m := by
  induction m with
  | zero => rfl
  | succ m ih =>
    rw [List.range'_1_concat, List.foldl_append, ih]
    simp only [List.foldl_cons, List.foldl_nil, wtPrefix]
    rw [show 1 + m - 1 = m by omega, show 1 + m = m + 1 by omega]

theorem waitingTimes_eq_wtPrefix (s a : List ℚ) (hs : ¬s.isEmpty) :
    waitingTimes s a = wtPrefix s a (s.length - 1) := by
  unfold waitingTimes
  rw [if_neg hs, wt_foldl_eq]

theorem wtPrefix_length (s a : List ℚ) (m : ℕ) :
    (wtPrefix s a m).length = m + 1 := by
  induction m with
  | zero => rfl
  | succ m ih => simp [wtPrefix, ih]

theorem wtPrefix_getD_stable (s a : List ℚ) {k m m' : ℕ} (h : k ≤ m) (h' : m ≤ m') :
    (wtPrefix s a m').getD k 0 = (wtPrefix s a m).getD k 0 := by
  induction m' with
  | zero =>
    have : m = 0 := Nat.le_zero.mp h'
    subst this; rfl
  | succ m' ih =>
    rcases Nat.lt_or_ge m (m' + 1) with hm | hm
    · have hmm : m ≤ m' := Nat.lt_succ_iff.mp hm
      rw [← ih hmm]
      simp only [wtPrefix]
      rw [List.getD_append _ _ _ _ (by rw [wtPrefix_length]; omega)]
    · have : m = m' + 1 := le_antisymm h' hm
      subst this; rfl

theorem wtPrefix_getLast (s a : List ℚ) (m : ℕ) :
    (wtPrefix s a m).getLast?.getD 0 = (wtPrefix s a m).getD m 0 := by
  cases m with
  | zero => rfl
  | succ m =>
    simp only [wtPrefix]
    rw [List.getD_append_right _ _ _ _ (wtPrefix_length s a m).le]
    simp [wtPrefix_length]

theorem wtPrefix_getD_succ (s a : List ℚ) (m : ℕ) :
    (wtPrefix s a (m + 1)).getD (m + 1) 0
      = max 0 ((wtPrefix s a m).getD m 0 + s.getD m 0 - a.getD (m + 1) 0) := by
  conv_lhs => simp only [wtPrefix]
  rw [List.getD_append_right _ _ _ _ (wtPrefix_length s a m).le]
  simp [wtPrefix_length, wtPrefix_getLast]

theorem wtPrefix_nonneg (s a : List ℚ) (m : ℕ) :
    ∀ x ∈ wtPrefix s a m, 0 ≤ x := by
  induction m with
  | zero => intro x hx; simp [wtPrefix] at hx; simp [hx]
  | succ m ih =>
    intro x hx
    rcases List.mem_append.mp hx with hx | hx
    · exact ih x hx
    · have : x = max 0 _ := List.mem_singleton.mp hx
      rw [this]; exact le_max_left 0 _

/-- **C4.**  For recorded service times `s` (non-empty) and recorded
interarrival times `a`, the waiting-time list produced by `extractor`
(`waitingTimes`) has one entry per service time and satisfies exactly the
Lindley recursion `w 0 = 0`, `w k = max 0 (w (k-1) + s (k-1) - a k)` for
`1 ≤ k < len s`; consequently every produced waiting time is non-negative. -/
theorem waiting_times_lindley_recursion (s a : List ℚ) (hs : s ≠ []) :
    (waitingTimes s a).length = s.length ∧
    (waitingTimes s a).getD 0 0 = 0 ∧
    (∀ k, 1 ≤ k → k < s.length →
      (waitingTimes s a).getD k 0
        = max 0 ((waitingTimes s a).getD (k - 1) 0 + s.getD (k - 1) 0 - a.getD k 0)) ∧
    (∀ x ∈ waitingTimes s a, 0 ≤ x) := by
  have hne : ¬s.isEmpty := by simpa [List.isEmpty_iff] using hs
  have hlen : 1 ≤ s.length := by
    cases s with
    | nil => exact absurd rfl hs
    | cons x xs => simp
  rw [waitingTimes_eq_wtPrefix s a hne]
  refine ⟨?_, ?_, ?_, wtPrefix_nonneg s a _⟩
  · rw [wtPrefix_length]; omega
  · rw [wtPrefix_getD_stable s a (le_refl 0) (Nat.zero_le _)]; rfl
  · intro k hk1 hk2
    obtain ⟨j, rfl⟩ : ∃ j, k = j + 1 := ⟨k - 1, by omega⟩
    simp only [Nat.add_sub_cancel]
    rw [wtPrefix_getD_stable s a (le_refl (j + 1)) (by omega : j + 1 ≤ s.length - 1),
        wtPrefix_getD_succ,
        wtPrefix_getD_stable s a (le_refl j) (by omega : j ≤ s.length - 1)]

/-- Witness for `waiting_times_lindley_recursion`: at `s = [2, 3]`,
`a = [1, 1]` the recursion equation holds at `k = 1`. -/
theorem waiting_times_lindley_recursion_witness :
    ([2, 3] : List ℚ) ≠ [] ∧
    (waitingTimes [2, 3] [1, 1]).getD 1 0
      = max 0 ((waitingTimes [2, 3] [1, 1]).getD 0 0
          + ([2, 3] : List ℚ).getD 0 0 - ([1, 1] : List ℚ).getD 1 0) :=
  ⟨by simp, (waiting_times_lindley_recursion [2, 3] [1, 1] (by simp)).2.2.1 1
    (by norm_num) (by norm_num)⟩

/-- **C2 counterexample.**  The events-heap comparison is NOT total and
type-safe: at equal time and equal job id, comparing the stream-marker tuple
`(1, 0, 'Source')` with the station tuple `(1, 0, 3)` reaches the comparison
`'Source' < 3`, which raises `TypeError` (modelled as `none`) — in either
order.  In particular no order in which the stream marker precedes station
indices is implemented. -/
theorem event_tuple_compare_mixed_tie_undefined :
    pyEventLt ⟨1, 0, .sourceStr⟩ ⟨1, 0, .stationInt 3⟩ = none ∧
    pyEventLt ⟨1, 0, .stationInt 3⟩ ⟨1, 0, .sourceStr⟩ = none := by
  with_unfolding_all decide

/-- **C2 (amended).**  The events-heap comparison orders by ascending time,
then ascending job id; two station events at equal time and job id compare
by ascending station index, and two stream-marker events compare as equal
(`some false` for `<`).  Only the mixed stream-marker/station comparison at
equal time and job id is undefined (raises `TypeError`,
cf. `event_tuple_compare_mixed_tie_undefined`). -/
theorem event_tuple_compare_defined_cases (a b : PyEvent) :
    (a.t ≠ b.t → pyEventLt a b = some (decide (a.t < b.t))) ∧
    (a.t = b.t → a.j ≠ b.j → pyEventLt a b = some (decide (a.j < b.j))) ∧
    (∀ i k, a.t = b.t → a.j = b.j → a.node = .stationInt i →
      b.node = .stationInt k → pyEventLt a b = some (decide (i < k))) ∧
    (a.t = b.t → a.j = b.j → a.node = .sourceStr → b.node = .sourceStr →
      pyEventLt a b = some false) := by
  refine ⟨?_, ?_, ?_, ?_⟩
  · intro h; simp [pyEventLt, h]
  · intro h1 h2; simp [pyEventLt, h1, h2]
  · intro i k h1 h2 h3 h4
    by_cases hik : i = k
    · subst hik; simp [pyEventLt, h1, h2, h3, h4, pyNodeEq, pyNodeLt]
    · simp [pyEventLt, h1, h2, h3, h4, pyNodeEq, pyNodeLt, hik]
  · intro h1 h2 h3 h4; simp [pyEventLt, h1, h2, h3, h4, pyNodeEq]

/-- Witness for `event_tuple_compare_defined_cases`: distinct times compare
by time. -/
theorem event_tuple_compare_defined_cases_witness :
    pyEventLt ⟨1, 0, .stationInt 2⟩ ⟨2, 5, .sourceStr⟩ = some true := by
  have h := (event_tuple_compare_defined_cases ⟨1, 0, .stationInt 2⟩
    ⟨2, 5, .sourceStr⟩).1 (by with_unfolding_all decide)
  rw [h]
  with_unfolding_all decide

/-- `np.random.choice` raises `ValueError` whenever the probability vector
contains a negative entry. -/
theorem npChoice_error_of_neg {p : List ℚ} (u : ℚ) (h : ∃ x ∈ p, x < 0) :
    npChoice p u = .error "probabilities are not non-negative" := by
  have hc : p.any (fun x => decide (x < 0)) = true := by
    rw [List.any_eq_true]
    obtain ⟨x, hx, hlt⟩ := h
    exact ⟨x, hx, by simpa using hlt⟩
  simp [npChoice, hc]

/-- **C5 counterexample.**  Constructing a station with a routing vector
summing to 2 (> 1) AND a negative service mean does not fail: `Queue.__init__`
completes normally, storing `p_out = -1` and `mu = -1` — no error is surfaced
at construction time. -/
theorem station_ctor_accepts_invalid_config :
    (Queue.init (-1) [2]).p_out = -1 ∧ (Queue.init (-1) [2]).mu = -1 ∧
    (Queue.init (-1) [2]).in_system = 0 ∧
    (Queue.init (-1) [2]).time_next = some 0 := by
  with_unfolding_all decide

/-- **C5 (amended).**  Construction performs no validation: a station whose
routing vector sums above 1 is built with a negative exit probability
`p_out = 1 - sum(destination)`, and the error surfaces only later, at the
station's first departure processing (`action_out`), when either the
routing sample `np.random.choice` rejects the negative probability or the
inconsistent state aborts the pop of the empty deque. -/
theorem invalid_routing_surfaces_at_first_departure (q : Queue)
    (hsum : 1 < q.destination.sum) (hp : q.p_out = 1 - q.destination.sum)
    (svc : ℕ → ℚ) (u t : ℚ) :
    ∃ msg, q.action_out svc u t = .error msg := by
  have hneg : q.p_out < 0 := by rw [hp]; linarith
  have hch : ∀ l : List ℚ, npChoice (l ++ [q.p_out]) u
      = .error "probabilities are not non-negative" :=
    fun l => npChoice_error_of_neg u ⟨q.p_out, by simp, hneg⟩
  unfold Queue.action_out
  split
  · cases hjq : q.jobs_in_system with
    | nil => exact ⟨"pop from an empty deque", rfl⟩
    | cons j rest =>
      exact ⟨"probabilities are not non-negative", by simp [hch, Except.map]⟩
  · exact ⟨"probabilities are not non-negative", by simp [hch, Except.map]⟩

/-- Witness for `invalid_routing_surfaces_at_first_departure`: the station
built from routing vector `[2]` errors at its first `action_out`. -/
theorem invalid_routing_surfaces_at_first_departure_witness :
    ∃ msg, (Queue.init (-1) [2]).action_out (fun _ => 0) 0 0 = .error msg :=
  invalid_routing_surfaces_at_first_departure (Queue.init (-1) [2])
    (by with_unfolding_all decide) (by with_unfolding_all decide) (fun _ => 0) 0 0

/-- **C6 counterexample.**  A lognormal stream advance whose log argument is
negative (`rho = -1`, `exp(s²) = 3`, so `rho·(e^{s²}−1)+1 = -1 < 0`) does NOT
fail: the computation runs to completion and silently produces NaN both as
the next-arrival time and as the stored latent normal — no domain error is
raised and nothing identifies the offending stream. -/
theorem lognormal_advance_produces_nan_not_error :
    sourceAdvanceLN (fun _ => 3) (fun x => x) (fun x => x) (-1) 1 0 0 0 0
      = (.nan, .nan) := by
  with_unfolding_all decide

/-- **C6 (amended).**  Whenever the logarithm argument
`rho·(e^{s²}−1)+1` is non-positive, the lognormal advance does not fail: the
`np.log` call yields NaN (or `-inf`), which propagates through the
correlation formula, and the stream's next arrival time and stored latent
normal are both silently set to NaN. -/
theorem lognormal_advance_nan_of_nonpositive_log_arg
    (qexp qlog qsqrt : ℚ → ℚ) (rho s m time last dummy : ℚ)
    (h : rho * (qexp (s * s) - 1) + 1 ≤ 0) :
    sourceAdvanceLN qexp qlog qsqrt rho s m time last dummy = (.nan, .nan) := by
  simp [sourceAdvanceLN, rmul, rexp, rsub, radd, rdiv, rsqrt, rlog, h]

/-- Witness for `lognormal_advance_nan_of_nonpositive_log_arg` at
`rho = -2`, `exp(s²) = 2`. -/
theorem lognormal_advance_nan_of_nonpositive_log_arg_witness :
    sourceAdvanceLN (fun _ => 2) (fun x => x) (fun x => x) (-2) 1 5 7 9 11
      = (.nan, .nan) :=
  lognormal_advance_nan_of_nonpositive_log_arg _ _ _ _ _ _ _ _ _ (by norm_num)

/-- **C1.**  This run evaluates the code at the failing input: two outside
streams with source rows `[1, 0]` and `[0, 1]`; stream 0 is due first (time
1) and its precomputed destination — sampled at construction over stream 0's
own row — is station 0.  When stream 0's arrival fires, `wrapper` calls
`Source.action_out` FIRST (which advances the heap, making stream 1 the new
`next_source`, and resamples `next_destination` over stream 1's row) and only
then reads `next_destination`: job 0 is delivered to station 1, not to its
own precomputed destination station 0.  This contradicts the documented
meaning of `source_matrix` ("the probability that a job from source i
arrives at node j"). -/
theorem source_arrival_delivered_to_resampled_destination :
    ((initState ⟨[1, 1], [[1, 0], [0, 1]], [[0, 0], [0, 0]], [1, 1], 1⟩
        (fun i => if i = 0 then 1 else 2) 0).map
      (fun st => st.src.next_destination)) = .ok 0 ∧
    (((initState ⟨[1, 1], [[1, 0], [0, 1]], [[0, 0], [0, 0]], [1, 1], 1⟩
        (fun i => if i = 0 then 1 else 2) 0).bind
      (step ⟨fun _ => 5, fun _ => 0, fun _ _ => 1, fun _ _ => 0⟩)).map
      (fun st => ((st.stations.getD 0 (Queue.init 0 [])).arrival_times,
                  (st.stations.getD 1 (Queue.init 0 [])).arrival_times)))
      = .ok ([], [1]) := by
  with_unfolding_all decide

/-- **C3 counterexample.**  One stream, one station, initial interarrival
draw 0 and service draw 0: the outside arrival fires at time 0, the arriving
job finds the station idle and is put in service with finish time
`0 + 0 = 0.0` — which is falsy, so NO departure event is scheduled.  After
this step the station has `in_system = 1` but zero pending departure events,
violating the claimed iff-invariant. -/
theorem pending_departure_iff_busy_fails_on_zero_service :
    ((initState ⟨[1], [[1]], [[0]], [1], 1⟩ (fun _ => 0) 0).bind
      (step ⟨fun _ => 1, fun _ => 0, fun _ _ => 0, fun _ _ => 0⟩)).map
      (fun st => ((st.stations.getD 0 (Queue.init 0 [])).in_system,
                  countStn 0 st.events)) = .ok (1, 0) := by
  with_unfolding_all decide

/-!
## Inversion lemmas for the loop body
-/

theorem action_in_eq_busy (svc : ℕ → ℚ) (t : ℚ) (job : ℕ) (q : Queue)
    (h : 1 ≤ q.in_system) :
    q.action_in svc t job =
      { q with in_system := q.in_system + 1,
               all_jobs := q.all_jobs ++ [job],
               jobs_in_system := q.jobs_in_system ++ [job],
               arrival_times := q.arrival_times ++ [t],
               time_next := none } := by
  unfold Queue.action_in
  rw [if_pos (by omega : (1:ℤ) < q.in_system + 1)]

theorem action_in_eq_idle (svc : ℕ → ℚ) (t : ℚ) (job : ℕ) (q : Queue)
    (h : q.in_system < 1) :
    q.action_in svc t job =
      { q with in_system := q.in_system + 1,
               all_jobs := q.all_jobs ++ [job],
               jobs_in_system := (q.jobs_in_system ++ [job]).tail,
               arrival_times := q.arrival_times ++ [t],
               next_job := some ((q.jobs_in_system ++ [job]).headD 0),
               service_times := q.service_times ++ [svc q.service_times.length],
               finish_time := t + svc q.service_times.length,
               time_next := some (t + svc q.service_times.length) } := by
  unfold Queue.action_in
  rw [if_neg (by omega : ¬ (1:ℤ) < q.in_system + 1)]

theorem action_out_cases {svc : ℕ → ℚ} {u t : ℚ} {q q2 : Queue}
    (h : q.action_out svc u t = .ok q2) :
    ∃ d, npChoice (q.destination ++ [q.p_out]) u = .ok d ∧
    ((q.in_system - 1 ≠ 0 ∧ ∃ j jrest, q.jobs_in_system = j :: jrest ∧
        q2 = { q with
               in_system := q.in_system - 1, next_job := some j,
               jobs_in_system := jrest,
               finish_time := t + svc q.service_times.length,
               service_times := q.service_times ++ [svc q.service_times.length],
               time_next := some (t + svc q.service_times.length),
               departure_times := q.departure_times ++ [t],
               next_destination := some d }) ∨
     (q.in_system - 1 = 0 ∧
        q2 = { q with
               in_system := q.in_system - 1, time_next := none,
               departure_times := q.departure_times ++ [t],
               next_destination := some d })) := by
  unfold Queue.action_out at h
  split at h
  · case isTrue hne =>
    cases hjq : q.jobs_in_system with
    | nil => rw [hjq] at h; simp at h
    | cons j jrest =>
      rw [hjq] at h
      simp only [] at h
      obtain ⟨d, hd, hq2⟩ := except_map_ok h
      exact ⟨d, hd, Or.inl ⟨hne, j, jrest, rfl, hq2.symm⟩⟩
  · case isFalse hz =>
    obtain ⟨d, hd, hq2⟩ := except_map_ok h
    exact ⟨d, hd, Or.inr ⟨by omega, hq2.symm⟩⟩

theorem deliver_cases {o : Oracle} {t : ℚ} {job dest : ℕ} {s s' : SimState}
    (h : deliver o t job dest s = .ok s') :
    (dest = s.stations.length ∧ s' = s) ∨
    (dest ≠ s.stations.length ∧ ∃ q, s.stations.get? dest = some q ∧
      s' = { s with
        stations := updateStation s.stations dest
          (fun _ => q.action_in (o.svc dest) t job),
        events := pushIf (q.action_in (o.svc dest) t job).time_next
          ((q.action_in (o.svc dest) t job).next_job.getD 0) (.stn dest)
          s.events }) := by
  unfold deliver at h
  split at h
  · case isTrue hd =>
    refine Or.inl ⟨hd, ?_⟩
    simpa using h.symm
  · case isFalse hd =>
    cases hq : s.stations.get? dest with
    | none => rw [hq] at h; simp at h
    | some q =>
      rw [hq] at h
      simp only [] at h
      refine Or.inr ⟨hd, q, rfl, ?_⟩
      simpa using h.symm

theorem step_cases {o : Oracle} {s s' : SimState} (h : step o s = .ok s') :
    ∃ e rest, popMin s.events = some (e, rest) ∧
      ((∃ src2, e.node = .src ∧
          s.src.action_out o.inc o.srcU e.t = .ok src2 ∧
          deliver o e.t e.j src2.next_destination
            { s with src := src2, clock := e.t,
                     events := pushIf (some src2.time_next) src2.next_job
                               .src rest }
            = .ok s') ∨
       (∃ k q q2, e.node = .stn k ∧ s.stations.get? k = some q ∧
          q.action_out (o.svc k) (o.routeU k q.departure_times.length) e.t
            = .ok q2 ∧
          deliver o e.t e.j (q2.next_destination.getD (s.stations.length + 1))
            { s with stations := updateStation s.stations k (fun _ => q2),
                     clock := e.t,
                     events := pushIf q2.time_next (q2.next_job.getD 0)
                               (.stn k) rest }
            = .ok s')) := by
  unfold step at h
  split at h
  · exact absurd h (by simp)
  · next e rest hpop =>
    refine ⟨e, rest, hpop, ?_⟩
    split at h
    · next hnode =>
      obtain ⟨src2, hsrc, hdel⟩ := except_bind_ok h
      exact Or.inl ⟨src2, hnode, hsrc, hdel⟩
    · next k hnode =>
      split at h
      · exact absurd h (by simp)
      · next q hq =>
        obtain ⟨q2, hout, hdel⟩ := except_bind_ok h
        exact Or.inr ⟨k, q, q2, hnode, hq, hout, hdel⟩

/-!
## Job accounting invariant (claim C8)
-/

theorem countStn_cons (k : ℕ) (e : Ev) (evs : List Ev) :
    countStn k (e :: evs)
      = countStn k evs + (if e.node = .stn k then 1 else 0) := by
  unfold countStn
  rw [List.countP_cons]
  simp

theorem countSrc_cons (e : Ev) (evs : List Ev) :
    countSrc (e :: evs)
      = countSrc evs + (if e.node = .src then 1 else 0) := by
  unfold countSrc
  rw [List.countP_cons]
  simp

/-- The per-station accounting invariant: `in_system` equals recorded
arrivals minus recorded departures and is non-negative; moreover at most one
departure event is pending per station, and a pending departure event implies
at least one job in system.  (The last two conjuncts are what makes the first
two inductive: a popped station event must find a busy station.) -/
def Acct (s : SimState) : Prop :=
  ∀ k q, s.stations.get? k = some q →
    q.in_system = (q.arrival_times.length : ℤ) - (q.departure_times.length : ℤ) ∧
    0 ≤ q.in_system ∧
    countStn k s.events ≤ 1 ∧
    (countStn k s.events = 1 → 1 ≤ q.in_system)

theorem pushIf_none (j : ℕ) (ν : Node) (evs : List Ev) :
    pushIf none j ν evs = evs := rfl

theorem pushIf_zero (j : ℕ) (ν : Node) (evs : List Ev) :
    pushIf (some 0) j ν evs = evs := by
  simp [pushIf, truthy]

theorem pushIf_ne_zero {x : ℚ} (hx : x ≠ 0) (j : ℕ) (ν : Node) (evs : List Ev) :
    pushIf (some x) j ν evs = { t := x, j := j, node := ν } :: evs := by
  simp [pushIf, truthy, hx]

theorem acct_deliver {o : Oracle} {t : ℚ} {job dest : ℕ} {s s' : SimState}
    (hA : Acct s) (h : deliver o t job dest s = .ok s') : Acct s' := by
  rcases deliver_cases h with ⟨_, rfl⟩ | ⟨hne, q0, hq0, rfl⟩
  · exact hA
  · intro k q hq
    simp only [updateStation_get?] at hq
    by_cases hk : k = dest
    · subst hk
      rw [if_pos rfl, hq0] at hq
      simp only [Option.map_some'] at hq
      obtain rfl : q0.action_in (o.svc k) t job = q := Option.some_inj.mp hq
      obtain ⟨heq, hnn, hle, him⟩ := hA k q0 hq0
      by_cases hbusy : 1 ≤ q0.in_system
      · rw [action_in_eq_busy _ _ _ _ hbusy]
        refine ⟨?_, ?_, ?_, ?_⟩
        · show q0.in_system + 1
            = ((q0.arrival_times ++ [t]).length : ℤ) - (q0.departure_times.length : ℤ)
          simp only [List.length_append, List.length_singleton]
          push_cast
          omega
        · show (0:ℤ) ≤ q0.in_system + 1
          omega
        · dsimp only
          rw [pushIf_none]
          exact hle
        · dsimp only
          rw [pushIf_none]
          intro h1
          have := him h1
          omega
      · push_neg at hbusy
        rw [action_in_eq_idle _ _ _ _ hbusy]
        have hzero : q0.in_system = 0 := le_antisymm (by omega) hnn
        have hcount0 : countStn k s.events = 0 := by
          rcases Nat.lt_or_ge (countStn k s.events) 1 with hc | hc
          · omega
          · have h1 : countStn k s.events = 1 := by omega
            have := him h1
            omega
        refine ⟨?_, ?_, ?_, ?_⟩
        · show q0.in_system + 1
            = ((q0.arrival_times ++ [t]).length : ℤ) - (q0.departure_times.length : ℤ)
          simp only [List.length_append, List.length_singleton]
          push_cast
          omega
        · show (0:ℤ) ≤ q0.in_system + 1
          omega
        · dsimp only
          rw [countStn_pushIf]
          simp only [hcount0]
          split <;> omega
        · dsimp only
          intro _
          omega
    · rw [if_neg hk] at hq
      obtain ⟨heq, hnn, hle, him⟩ := hA k q hq
      have hstn : ¬(Node.stn dest = Node.stn k) := by
        intro hcon
        injection hcon with h2
        exact hk h2.symm
      have hcount : countStn k (pushIf (q0.action_in (o.svc dest) t job).time_next
          ((q0.action_in (o.svc dest) t job).next_job.getD 0) (.stn dest) s.events)
          = countStn k s.events := by
        rw [countStn_pushIf]
        simp [hstn]
      refine ⟨heq, hnn, ?_, ?_⟩
      · rw [hcount]; exact hle
      · rw [hcount]; exact him

theorem acct_step {o : Oracle} {s s' : SimState} (hA : Acct s)
    (h : step o s = .ok s') : Acct s' := by
  obtain ⟨e, rest, hpop, hcase⟩ := step_cases h
  obtain ⟨hmem, hperm, hmin⟩ := popMin_eq_some hpop
  rcases hcase with ⟨src2, hnode, hsrc, hdel⟩ | ⟨k0, q0, q2, hnode, hq0, hout, hdel⟩
  · refine acct_deliver ?_ hdel
    intro k q hq
    simp only [] at hq
    obtain ⟨heq, hnn, hle, him⟩ := hA k q hq
    have hrest : countStn k rest = countStn k s.events := by
      rw [countStn_perm hperm, countStn_cons]
      simp [hnode]
    have hcount : countStn k (pushIf (some src2.time_next) src2.next_job .src rest)
        = countStn k s.events := by
      rw [countStn_pushIf, hrest]
      simp
    refine ⟨heq, hnn, ?_, ?_⟩
    · rw [hcount]; exact hle
    · rw [hcount]; exact him
  · refine acct_deliver ?_ hdel
    obtain ⟨heq0, hnn0, hle0, him0⟩ := hA k0 q0 hq0
    have hc1 : countStn k0 s.events = 1 :=
      le_antisymm hle0 (countStn_pos_of_mem hmem hnode)
    have hbusy0 : (1:ℤ) ≤ q0.in_system := him0 hc1
    have hrest0 : countStn k0 rest = 0 := by
      have hp := @countStn_perm k0 _ _ hperm
      rw [countStn_cons, hnode, if_pos rfl, hc1] at hp
      omega
    intro k q hq
    simp only [updateStation_get?] at hq
    by_cases hk : k = k0
    · subst hk
      rw [if_pos rfl, hq0] at hq
      simp only [Option.map_some'] at hq
      obtain rfl : q2 = q := Option.some_inj.mp hq
      obtain ⟨d, hd, hcases⟩ := action_out_cases hout
      rcases hcases with ⟨hne0, j, jrest, hjq, rfl⟩ | ⟨hz, rfl⟩
      · refine ⟨?_, ?_, ?_, ?_⟩
        · show q0.in_system - 1 = (q0.arrival_times.length : ℤ)
            - ((q0.departure_times ++ [e.t]).length : ℤ)
          simp only [List.length_append, List.length_singleton]
          push_cast
          omega
        · show (0:ℤ) ≤ q0.in_system - 1
          omega
        · dsimp only
          rw [countStn_pushIf]
          simp only [hrest0]
          split <;> omega
        · dsimp only
          intro _
          omega
      · refine ⟨?_, ?_, ?_, ?_⟩
        · show q0.in_system - 1 = (q0.arrival_times.length : ℤ)
            - ((q0.departure_times ++ [e.t]).length : ℤ)
          simp only [List.length_append, List.length_singleton]
          push_cast
          omega
        · show (0:ℤ) ≤ q0.in_system - 1
          omega
        · dsimp only
          rw [pushIf_none, hrest0]
          omega
        · dsimp only
          rw [pushIf_none, hrest0]
          omega
    · rw [if_neg hk] at hq
      obtain ⟨heq, hnn, hle, him⟩ := hA k q hq
      have hstn : ¬(Node.stn k0 = Node.stn k) := by
        intro hcon
        injection hcon with h2
        exact hk h2.symm
      have hrest : countStn k rest = countStn k s.events := by
        rw [countStn_perm hperm, countStn_cons, hnode]
        simp [hstn]
      have hcount : countStn k (pushIf q2.time_next (q2.next_job.getD 0)
          (.stn k0) rest) = countStn k s.events := by
        rw [countStn_pushIf, hrest]
        simp [hstn]
      refine ⟨heq, hnn, ?_, ?_⟩
      · rw [hcount]; exact hle
      · rw [hcount]; exact him

theorem acct_stepN {o : Oracle} {m : ℕ} {s s' : SimState} (hA : Acct s)
    (h : stepN o m s = .ok s') : Acct s' := by
  induction m generalizing s with
  | zero =>
    simp only [stepN, Except.ok.injEq] at h
    exact h ▸ hA
  | succ m ih =>
    obtain ⟨s1, h1, h2⟩ := except_bind_ok h
    exact ih (acct_step hA h1) h2

theorem acct_init {cfg : Config} {d0 : ℕ → ℚ} {u0 : ℚ} {s0 : SimState}
    (h : initState cfg d0 u0 = .ok s0) : Acct s0 := by
  obtain ⟨src, hsrc, rfl⟩ := except_map_ok h
  intro k q hq
  simp only [List.getElem?_map, List.get?_eq_getElem?] at hq
  cases hrange : (List.range (cfg.transition_matrix.headD []).length)[k]? with
  | none => rw [hrange] at hq; simp at hq
  | some i =>
    rw [hrange] at hq
    simp only [Option.map_some'] at hq
    obtain rfl : Queue.init (cfg.service_means.getD i 0)
        (cfg.transition_matrix.getD i []) = q := Option.some_inj.mp hq
    refine ⟨by simp [Queue.init], by simp [Queue.init], ?_, ?_⟩
    · simp [countStn_cons, countStn]
    · intro hcon
      simp [countStn_cons, countStn] at hcon

/-- **C8.**  At every point during a run (any number of loop iterations from
the initial state), every station's `in_system` count equals the number of
recorded arrivals minus the number of recorded departures, and is never
negative. -/
theorem in_system_eq_arrivals_minus_departures
    (cfg : Config) (o : Oracle) (d0 : ℕ → ℚ) (u0 : ℚ) (m : ℕ)
    (s0 s' : SimState)
    (hinit : initState cfg d0 u0 = .ok s0) (hrun : stepN o m s0 = .ok s') :
    ∀ k q, s'.stations.get? k = some q →
      q.in_system
        = (q.arrival_times.length : ℤ) - (q.departure_times.length : ℤ) ∧
      0 ≤ q.in_system := by
  have hA := acct_stepN (acct_init hinit) hrun
  intro k q hq
  exact ⟨(hA k q hq).1, (hA k q hq).2.1⟩

/-!
## Concrete scenario shared by the witnesses

One outside stream entering station 0 with probability 1; station 0 exits
with probability 1; all interarrival and service draws are 1; departure
target 1.
-/

/-- Extract the state from a successful run (placeholder state otherwise;
only applied to runs that are in fact successful). -/
def okState (e : Except String SimState) : SimState :=
  match e with
  | .ok s => s
  | .error _ =>
    { src := ⟨0, 0, [], [], 0, 0, 0, 0⟩, stations := [], events := [], clock := 0 }

/-- Station `k` of a state (placeholder if out of range). -/
def getQ (s : SimState) (k : ℕ) : Queue :=
  (s.stations.get? k).getD (Queue.init 0 [])

def cfg1 : Config := ⟨[1], [[1]], [[0]], [1], 1⟩

def orc1 : Oracle := ⟨fun _ => 1, fun _ => 0, fun _ _ => 1, fun _ _ => 0⟩

def d0one : ℕ → ℚ := fun _ => 1

def sim0 : SimState := okState (initState cfg1 d0one 0)

def sim1 : SimState := okState (stepN orc1 1 sim0)

def sim2 : SimState := okState (stepN orc1 2 sim0)

/-- Witness for `in_system_eq_arrivals_minus_departures`: after two loop
iterations of the concrete scenario, station 0 satisfies the accounting
equation. -/
theorem in_system_eq_arrivals_minus_departures_witness :
    (getQ sim2 0).in_system
      = ((getQ sim2 0).arrival_times.length : ℤ)
        - ((getQ sim2 0).departure_times.length : ℤ) ∧
    0 ≤ (getQ sim2 0).in_system :=
  in_system_eq_arrivals_minus_departures cfg1 orc1 d0one 0 2 sim0 sim2
    (by with_unfolding_all decide) (by with_unfolding_all decide)
    0 (getQ sim2 0) (by with_unfolding_all decide)

/-!
## Clock monotonicity (claim C7)
-/

theorem mem_pushIf {e : Ev} {tn : Option ℚ} {j : ℕ} {ν : Node} {evs : List Ev}
    (h : e ∈ pushIf tn j ν evs) :
    e ∈ evs ∨ (tn = some e.t ∧ e.node = ν ∧ e.j = j) := by
  unfold pushIf at h
  split at h
  case isTrue ht =>
    rcases List.mem_cons.mp h with he | he
    · subst he
      cases tn with
      | none => simp [truthy] at ht
      | some x => exact Or.inr ⟨rfl, rfl, rfl⟩
    · exact Or.inl he
  case isFalse ht => exact Or.inl h

theorem action_in_time_next (svc : ℕ → ℚ) (t : ℚ) (job : ℕ) (q : Queue) :
    (q.action_in svc t job).time_next = none ∨
    (q.action_in svc t job).time_next = some (t + svc q.service_times.length) := by
  by_cases hbusy : 1 ≤ q.in_system
  · rw [action_in_eq_busy _ _ _ _ hbusy]
    exact Or.inl rfl
  · rw [action_in_eq_idle _ _ _ _ (by omega)]
    exact Or.inr rfl

theorem action_out_time_next {svc : ℕ → ℚ} {u t : ℚ} {q q2 : Queue}
    (h : q.action_out svc u t = .ok q2) :
    q2.time_next = none ∨
    q2.time_next = some (t + svc q.service_times.length) := by
  obtain ⟨d, hd, hcases⟩ := action_out_cases h
  rcases hcases with ⟨_, j, jr, _, rfl⟩ | ⟨_, rfl⟩
  · exact Or.inr rfl
  · exact Or.inl rfl

theorem source_action_out_cases {inc u : ℕ → ℚ} {t : ℚ} {s s2 : Source}
    (h : s.action_out inc u t = .ok s2) :
    ∃ x xs d, s.next_arrival = x :: xs ∧
      s2 = { s with
             next_arrival := (t + inc s.next_job, s.next_source)
               :: (x :: xs).erase (heapMin x xs),
             time_next := (heapMin (t + inc s.next_job, s.next_source)
               ((x :: xs).erase (heapMin x xs))).1,
             next_source := (heapMin (t + inc s.next_job, s.next_source)
               ((x :: xs).erase (heapMin x xs))).2,
             next_job := s.next_job + 1, next_destination := d } := by
  unfold Source.action_out at h
  split at h
  · exact absurd h (by simp)
  · next x xs heq =>
    obtain ⟨d, hd, hs2⟩ := except_map_ok h
    exact ⟨x, xs, d, heq, hs2.symm⟩

theorem source_init_cases {am : List ℚ} {sm : List (List ℚ)} {d0 : ℕ → ℚ}
    {u0 : ℚ} {src : Source} (h : Source.init am sm d0 u0 = .ok src) :
    ∃ x xs d, (List.range am.length).map (fun i => (d0 i, i)) = x :: xs ∧
      src = { number_of_sources := am.length,
              number_of_nodes := (sm.headD []).length,
              source_matrix := sm, next_arrival := x :: xs,
              time_next := (heapMin x xs).1, next_source := (heapMin x xs).2,
              next_job := 0, next_destination := d } := by
  unfold Source.init at h
  dsimp only at h
  split at h
  · exact absurd h (by simp)
  · next x xs heq =>
    obtain ⟨d, hd, hs⟩ := except_map_ok h
    exact ⟨x, xs, d, heq, hs.symm⟩

theorem deliver_events {o : Oracle} {t : ℚ} {job dest : ℕ} {s1 s' : SimState}
    (h : deliver o t job dest s1 = .ok s') :
    s'.clock = s1.clock ∧ s'.src = s1.src ∧
    s'.stations.length = s1.stations.length ∧
    countSrc s'.events = countSrc s1.events ∧
    ∀ e ∈ s'.events, e ∈ s1.events ∨
      (e.node = .stn dest ∧ ∃ i, e.t = t + o.svc dest i) := by
  rcases deliver_cases h with ⟨_, rfl⟩ | ⟨hne, q, hq, rfl⟩
  · exact ⟨rfl, rfl, rfl, rfl, fun e he => Or.inl he⟩
  · refine ⟨rfl, rfl, ?_, ?_, ?_⟩
    · exact updateStation_length _ _ _
    · show countSrc (pushIf _ _ _ s1.events) = countSrc s1.events
      rw [countSrc_pushIf]
      simp
    · intro e he
      rcases mem_pushIf he with he | ⟨htn, hnode, _⟩
      · exact Or.inl he
      · refine Or.inr ⟨hnode, ?_⟩
        rcases action_in_time_next (o.svc dest) t job q with h0 | h0
        · rw [h0] at htn; simp at htn
        · rw [h0] at htn
          exact ⟨q.service_times.length, (Option.some_inj.mp htn).symm⟩

/-- The causality invariant: the clock is non-negative, every pending event
lies at or after the clock, at most one source event is pending, and every
pending source event carries exactly the minimum of the source heap. -/
def Chrono (s : SimState) : Prop :=
  0 ≤ s.clock ∧
  (∀ e ∈ s.events, s.clock ≤ e.t) ∧
  countSrc s.events ≤ 1 ∧
  (∀ e ∈ s.events, e.node = .src →
    ∃ x xs, s.src.next_arrival = x :: xs ∧ e.t = (heapMin x xs).1)

theorem chrono_deliver {o : Oracle} {t : ℚ} {job dest : ℕ} {s1 s' : SimState}
    (hsvc : ∀ k j, 0 ≤ o.svc k j) (hC : Chrono s1) (hclk : s1.clock = t)
    (h : deliver o t job dest s1 = .ok s') : Chrono s' ∧ s'.clock = t := by
  obtain ⟨hc0, hge, hsrc1, hlink⟩ := hC
  obtain ⟨hclk', hsrc', _, hcnt, hev⟩ := deliver_events h
  refine ⟨⟨?_, ?_, ?_, ?_⟩, by rw [hclk', hclk]⟩
  · rw [hclk']; exact hc0
  · intro e he
    rcases hev e he with he1 | ⟨_, i, hti⟩
    · rw [hclk']; exact hge e he1
    · rw [hclk', hclk, hti]
      have := hsvc dest i
      linarith
  · rw [hcnt]; exact hsrc1
  · intro e he hnode
    rcases hev e he with he1 | ⟨hstn, _⟩
    · rw [hsrc']; exact hlink e he1 hnode
    · rw [hnode] at hstn; exact absurd hstn (by simp)

theorem chrono_step {o : Oracle} {s s' : SimState}
    (hinc : ∀ i, 0 ≤ o.inc i) (hsvc : ∀ k j, 0 ≤ o.svc k j)
    (hC : Chrono s) (h : step o s = .ok s') :
    Chrono s' ∧ s.clock ≤ s'.clock := by
  obtain ⟨hc0, hge, hsrc1, hlink⟩ := hC
  obtain ⟨e, rest, hpop, hcase⟩ := step_cases h
  obtain ⟨hmem, hperm, hmin⟩ := popMin_eq_some hpop
  have hclk : s.clock ≤ e.t := hge e hmem
  have hrest_sub : ∀ y ∈ rest, y ∈ s.events := by
    intro y hy
    exact hperm.symm.subset (List.mem_cons_of_mem _ hy)
  have hrest_ge : ∀ y ∈ rest, e.t ≤ y.t := by
    intro y hy
    exact evLe_t_le (hmin y (hrest_sub y hy))
  rcases hcase with ⟨src2, hnode, hsrcout, hdel⟩ | ⟨k0, q0, q2, hnode, hq0, hout, hdel⟩
  · -- a source event fires
    obtain ⟨x, xs, d, hheap, hsrc2⟩ := source_action_out_cases hsrcout
    obtain ⟨x0, xs0, hheap0, htmin⟩ := hlink e hmem hnode
    rw [hheap] at hheap0
    injection hheap0 with hx0 hxs0
    rw [← hx0, ← hxs0] at htmin
    have hrest_nosrc : countSrc rest = 0 := by
      have hp := countSrc_perm hperm
      rw [countSrc_cons, hnode, if_pos rfl] at hp
      omega
    have hall2 : ∀ p ∈ (e.t + o.inc s.src.next_job, s.src.next_source)
        :: (x :: xs).erase (heapMin x xs), e.t ≤ p.1 := by
      intro p hp
      rcases List.mem_cons.mp hp with rfl | hp
      · have := hinc s.src.next_job
        show e.t ≤ e.t + o.inc s.src.next_job
        linarith
      · have hpx : p ∈ x :: xs := List.mem_of_mem_erase hp
        have := pairLe_fst_le (heapMin_le x xs p hpx)
        rw [htmin]
        linarith
    have hmn2 : e.t ≤ (heapMin (e.t + o.inc s.src.next_job, s.src.next_source)
        ((x :: xs).erase (heapMin x xs))).1 :=
      hall2 _ (heapMin_mem _ _)
    have htn2 : src2.time_next = (heapMin (e.t + o.inc s.src.next_job,
        s.src.next_source) ((x :: xs).erase (heapMin x xs))).1 := by
      rw [hsrc2]
    have hC1 : Chrono { s with
        src := src2, clock := e.t,
        events := pushIf (some src2.time_next) src2.next_job .src rest } := by
      refine ⟨by show (0:ℚ) ≤ e.t; linarith, ?_, ?_, ?_⟩
      · intro e2 he2
        rcases mem_pushIf he2 with he2 | ⟨htn, _, _⟩
        · exact hrest_ge e2 he2
        · rw [htn2] at htn
          show e.t ≤ e2.t
          rw [← Option.some_inj.mp htn]
          exact hmn2
      · show countSrc (pushIf _ _ _ rest) ≤ 1
        rw [countSrc_pushIf, hrest_nosrc]
        split <;> omega
      · intro e2 he2 hnode2
        rcases mem_pushIf he2 with he2 | ⟨htn, _, _⟩
        · exact absurd (countSrc_pos_of_mem he2 hnode2) (by omega)
        · refine ⟨(e.t + o.inc s.src.next_job, s.src.next_source),
            (x :: xs).erase (heapMin x xs), ?_, ?_⟩
          · rw [hsrc2]
          · rw [htn2] at htn
            exact (Option.some_inj.mp htn).symm
    have := chrono_deliver hsvc hC1 rfl hdel
    exact ⟨this.1, le_trans hclk (le_of_eq this.2.symm)⟩
  · -- a station event fires
    have hC1 : Chrono { s with
        stations := updateStation s.stations k0 (fun _ => q2), clock := e.t,
        events := pushIf q2.time_next (q2.next_job.getD 0) (.stn k0) rest } := by
      refine ⟨by show (0:ℚ) ≤ e.t; linarith, ?_, ?_, ?_⟩
      · intro e2 he2
        rcases mem_pushIf he2 with he2 | ⟨htn, _, _⟩
        · exact hrest_ge e2 he2
        · rcases action_out_time_next hout with h0 | h0
          · rw [h0] at htn; simp at htn
          · rw [h0] at htn
            show e.t ≤ e2.t
            rw [← Option.some_inj.mp htn]
            have := hsvc k0 q0.service_times.length
            linarith
      · show countSrc (pushIf _ _ _ rest) ≤ 1
        rw [countSrc_pushIf]
        have hp := countSrc_perm hperm
        rw [countSrc_cons, hnode, if_neg (by simp)] at hp
        split
        · next hcon => exact absurd hcon.2 (by simp)
        · omega
      · intro e2 he2 hnode2
        rcases mem_pushIf he2 with he2 | ⟨htn, hstn, _⟩
        · exact hlink e2 (hrest_sub e2 he2) hnode2
        · rw [hnode2] at hstn; exact absurd hstn (by simp)
    have := chrono_deliver hsvc hC1 rfl hdel
    exact ⟨this.1, le_trans hclk (le_of_eq this.2.symm)⟩

theorem chrono_init {cfg : Config} {d0 : ℕ → ℚ} {u0 : ℚ} {s0 : SimState}
    (hd0 : ∀ i, 0 ≤ d0 i) (h : initState cfg d0 u0 = .ok s0) : Chrono s0 := by
  obtain ⟨src, hsrc, rfl⟩ := except_map_ok h
  obtain ⟨x, xs, d, hmap, hsrceq⟩ := source_init_cases hsrc
  have hnn : ∀ p ∈ x :: xs, 0 ≤ p.1 := by
    intro p hp
    rw [← hmap] at hp
    obtain ⟨i, _, rfl⟩ := List.mem_map.mp hp
    exact hd0 i
  have htn : 0 ≤ src.time_next := by
    rw [hsrceq]
    exact hnn _ (heapMin_mem x xs)
  refine ⟨le_refl 0, ?_, ?_, ?_⟩
  · intro e he
    rcases List.mem_singleton.mp he with rfl
    exact htn
  · show countSrc [_] ≤ 1
    rw [countSrc_cons]
    simp [countSrc]
  · intro e he hnode
    rcases List.mem_singleton.mp he with rfl
    refine ⟨x, xs, ?_, ?_⟩
    · rw [hsrceq]
    · show src.time_next = (heapMin x xs).1
      rw [hsrceq]

theorem stepN_add (o : Oracle) (a b : ℕ) (s : SimState) :
    stepN o (a + b) s = (stepN o a s).bind (stepN o b) := by
  induction a generalizing s with
  | zero =>
    rw [Nat.zero_add]
    show stepN o b s = (Except.ok s).bind (stepN o b)
    rfl
  | succ a ih =>
    rw [Nat.succ_add]
    show (step o s).bind (stepN o (a + b))
      = ((step o s).bind (stepN o a)).bind (stepN o b)
    cases step o s with
    | error e => rfl
    | ok s1 =>
      show stepN o (a + b) s1 = (stepN o a s1).bind (stepN o b)
      exact ih s1

theorem chrono_stepN {o : Oracle} {m : ℕ} {s s' : SimState}
    (hinc : ∀ i, 0 ≤ o.inc i) (hsvc : ∀ k j, 0 ≤ o.svc k j)
    (hC : Chrono s) (h : stepN o m s = .ok s') :
    Chrono s' ∧ s.clock ≤ s'.clock := by
  induction m generalizing s with
  | zero =>
    simp only [stepN, Except.ok.injEq] at h
    exact h ▸ ⟨hC, le_refl _⟩
  | succ m ih =>
    obtain ⟨s1, h1, h2⟩ := except_bind_ok h
    obtain ⟨hC1, hle1⟩ := chrono_step hinc hsvc hC h1
    obtain ⟨hC2, hle2⟩ := ih hC1 h2
    exact ⟨hC2, le_trans hle1 hle2⟩

/-- **C7.**  In every run in which all sampled interarrival increments,
initial arrival draws and service increments are non-negative, the global
clock never decreases: after `a ≤ b` loop iterations from the initial state,
the clock at iteration `a` is at most the clock at iteration `b`.  Since the
loop sets the clock to the time of each popped event, this says exactly
that the sequence of event times popped from the events heap is
nondecreasing over the run. -/
theorem popped_event_times_monotone
    (cfg : Config) (o : Oracle) (d0 : ℕ → ℚ) (u0 : ℚ)
    (hinc : ∀ i, 0 ≤ o.inc i) (hsvc : ∀ k j, 0 ≤ o.svc k j)
    (hd0 : ∀ i, 0 ≤ d0 i)
    (s0 : SimState) (hinit : initState cfg d0 u0 = .ok s0)
    (a b : ℕ) (hab : a ≤ b) (sa sb : SimState)
    (ha : stepN o a s0 = .ok sa) (hb : stepN o b s0 = .ok sb) :
    sa.clock ≤ sb.clock := by
  have hCa := chrono_stepN hinc hsvc (chrono_init hd0 hinit) ha
  obtain ⟨c, rfl⟩ := Nat.exists_eq_add_of_le hab
  rw [stepN_add, ha] at hb
  have hrest : stepN o c sa = .ok sb := hb
  exact (chrono_stepN hinc hsvc hCa.1 hrest).2

/-- Witness for `popped_event_times_monotone`: in the concrete scenario the
clock after one iteration is at most the clock after two. -/
theorem popped_event_times_monotone_witness : sim1.clock ≤ sim2.clock :=
  popped_event_times_monotone cfg1 orc1 d0one 0
    (fun _ => by norm_num [orc1]) (fun _ _ => by norm_num [orc1])
    (fun _ => by norm_num [d0one]) sim0 (by with_unfolding_all decide)
    1 2 (by norm_num) sim1 sim2
    (by with_unfolding_all decide) (by with_unfolding_all decide)

/-!
## Pending-departure iff busy (claim C3, amended)
-/

/-- Each station has exactly one pending departure event when it has at
least one job in system, and none otherwise. -/
def PendIff (s : SimState) : Prop :=
  ∀ k q, s.stations.get? k = some q →
    countStn k s.events = if 1 ≤ q.in_system then 1 else 0

theorem pendiff_deliver {o : Oracle} {t : ℚ} {job dest : ℕ} {s1 s' : SimState}
    (hsvc : ∀ k j, 0 < o.svc k j) (ht : 0 ≤ t)
    (hnn : ∀ k q, s1.stations.get? k = some q → 0 ≤ q.in_system)
    (hP : PendIff s1)
    (h : deliver o t job dest s1 = .ok s') : PendIff s' := by
  rcases deliver_cases h with ⟨_, rfl⟩ | ⟨hne, q0, hq0, rfl⟩
  · exact hP
  · intro k q hq
    simp only [updateStation_get?] at hq
    by_cases hk : k = dest
    · subst hk
      rw [if_pos rfl, hq0] at hq
      simp only [Option.map_some'] at hq
      obtain rfl : q0.action_in (o.svc k) t job = q := Option.some_inj.mp hq
      have hPk := hP k q0 hq0
      by_cases hbusy : 1 ≤ q0.in_system
      · rw [action_in_eq_busy _ _ _ _ hbusy]
        dsimp only
        rw [pushIf_none, hPk, if_pos hbusy, if_pos (by omega)]
      · push_neg at hbusy
        rw [action_in_eq_idle _ _ _ _ hbusy]
        have hzero : q0.in_system = 0 := le_antisymm (by omega) (hnn k q0 hq0)
        have hpos : t + o.svc k q0.service_times.length ≠ 0 := by
          have := hsvc k q0.service_times.length
          linarith
        dsimp only
        rw [pushIf_ne_zero hpos, countStn_cons, if_pos rfl, hPk,
            if_neg (by omega), if_pos (by omega)]
    · rw [if_neg hk] at hq
      have hstn : ¬(Node.stn dest = Node.stn k) := by
        intro hcon
        injection hcon with h2
        exact hk h2.symm
      have hcnt : countStn k (pushIf (q0.action_in (o.svc dest) t job).time_next
          ((q0.action_in (o.svc dest) t job).next_job.getD 0) (.stn dest)
          s1.events) = countStn k s1.events := by
        rw [countStn_pushIf]
        simp [hstn]
      rw [hcnt]
      exact hP k q hq

theorem pendiff_step {o : Oracle} {s s' : SimState}
    (hsvc : ∀ k j, 0 < o.svc k j)
    (hA : Acct s) (hC : Chrono s) (hP : PendIff s)
    (h : step o s = .ok s') : PendIff s' := by
  obtain ⟨e, rest, hpop, hcase⟩ := step_cases h
  obtain ⟨hmem, hperm, hmin⟩ := popMin_eq_some hpop
  have ht : 0 ≤ e.t := le_trans hC.1 (hC.2.1 e hmem)
  rcases hcase with ⟨src2, hnode, hsrcout, hdel⟩ | ⟨k0, q0, q2, hnode, hq0, hout, hdel⟩
  · have hcnt : ∀ k, countStn k (pushIf (some src2.time_next) src2.next_job
        .src rest) = countStn k s.events := by
      intro k
      have hrest : countStn k rest = countStn k s.events := by
        rw [countStn_perm hperm, countStn_cons]
        simp [hnode]
      rw [countStn_pushIf, hrest]
      simp
    refine pendiff_deliver hsvc ht ?_ ?_ hdel
    · intro k q hq
      exact (hA k q hq).2.1
    · intro k q hq
      rw [hcnt]
      exact hP k q hq
  · have hc1 : countStn k0 s.events = 1 := by
      have hle := (hA k0 q0 hq0).2.2.1
      exact le_antisymm hle (countStn_pos_of_mem hmem hnode)
    have hbusy0 : (1:ℤ) ≤ q0.in_system := (hA k0 q0 hq0).2.2.2 hc1
    have hrest0 : countStn k0 rest = 0 := by
      have hp := @countStn_perm k0 _ _ hperm
      rw [countStn_cons, hnode, if_pos rfl, hc1] at hp
      omega
    obtain ⟨d, hd, hcases⟩ := action_out_cases hout
    refine pendiff_deliver hsvc ht ?_ ?_ hdel
    · intro k q hq
      simp only [updateStation_get?] at hq
      by_cases hk : k = k0
      · subst hk
        rw [if_pos rfl, hq0] at hq
        simp only [Option.map_some'] at hq
        obtain rfl : q2 = q := Option.some_inj.mp hq
        rcases hcases with ⟨hne0, j, jrest, hjq, rfl⟩ | ⟨hz, rfl⟩
        · show (0:ℤ) ≤ q0.in_system - 1
          omega
        · show (0:ℤ) ≤ q0.in_system - 1
          omega
      · rw [if_neg hk] at hq
        exact (hA k q hq).2.1
    · intro k q hq
      simp only [updateStation_get?] at hq
      by_cases hk : k = k0
      · subst hk
        rw [if_pos rfl, hq0] at hq
        simp only [Option.map_some'] at hq
        obtain rfl : q2 = q := Option.some_inj.mp hq
        rcases hcases with ⟨hne0, j, jrest, hjq, rfl⟩ | ⟨hz, rfl⟩
        · have hpos : e.t + o.svc k q0.service_times.length ≠ 0 := by
            have := hsvc k q0.service_times.length
            linarith
          dsimp only
          rw [pushIf_ne_zero hpos, countStn_cons, if_pos rfl, hrest0,
              if_pos (by omega)]
        · dsimp only
          rw [pushIf_none, hrest0, if_neg (by omega)]
      · rw [if_neg hk] at hq
        have hstn : ¬(Node.stn k0 = Node.stn k) := by
          intro hcon
          injection hcon with h2
          exact hk h2.symm
        have hrest : countStn k rest = countStn k s.events := by
          rw [countStn_perm hperm, countStn_cons, hnode]
          simp [hstn]
        have hcnt : countStn k (pushIf q2.time_next (q2.next_job.getD 0)
            (.stn k0) rest) = countStn k s.events := by
          rw [countStn_pushIf, hrest]
          simp [hstn]
        rw [hcnt]
        exact hP k q hq

theorem pendiff_init {cfg : Config} {d0 : ℕ → ℚ} {u0 : ℚ} {s0 : SimState}
    (h : initState cfg d0 u0 = .ok s0) : PendIff s0 := by
  obtain ⟨src, hsrc, rfl⟩ := except_map_ok h
  intro k q hq
  simp only [List.getElem?_map, List.get?_eq_getElem?] at hq
  cases hrange : (List.range (cfg.transition_matrix.headD []).length)[k]? with
  | none => rw [hrange] at hq; simp at hq
  | some i =>
    rw [hrange] at hq
    simp only [Option.map_some'] at hq
    obtain rfl : Queue.init (cfg.service_means.getD i 0)
        (cfg.transition_matrix.getD i []) = q := Option.some_inj.mp hq
    rw [if_neg (by simp [Queue.init])]
    simp [countStn_cons, countStn]

/-- **C3 (amended).**  In every run in which all sampled service increments
are strictly positive and all interarrival draws non-negative, each station
has a pending departure event in the events heap iff it has at least one job
in system, and at most one pending departure event ever exists per station
(the count is exactly 1 when busy and 0 when idle).  The positivity proviso
is forced by the counterexample
`pending_departure_iff_busy_fails_on_zero_service`: a service draw of 0 at
clock 0 yields a falsy `time_next` and the departure event is silently
dropped. -/
theorem pending_departure_iff_busy_of_pos_draws
    (cfg : Config) (o : Oracle) (d0 : ℕ → ℚ) (u0 : ℚ)
    (hsvc : ∀ k i, 0 < o.svc k i) (hinc : ∀ i, 0 ≤ o.inc i)
    (hd0 : ∀ i, 0 ≤ d0 i) (m : ℕ) (s0 s' : SimState)
    (hinit : initState cfg d0 u0 = .ok s0) (hrun : stepN o m s0 = .ok s') :
    ∀ k q, s'.stations.get? k = some q →
      countStn k s'.events = if 1 ≤ q.in_system then 1 else 0 := by
  have main : ∀ m s s', Acct s → Chrono s → PendIff s →
      stepN o m s = .ok s' → PendIff s' := by
    intro m
    induction m with
    | zero =>
      intro s s' _ _ hP h
      simp only [stepN, Except.ok.injEq] at h
      exact h ▸ hP
    | succ m ih =>
      intro s s' hA hC hP h
      obtain ⟨s1, h1, h2⟩ := except_bind_ok h
      exact ih s1 s' (acct_step hA h1)
        (chrono_step hinc (fun k j => le_of_lt (hsvc k j)) hC h1).1
        (pendiff_step hsvc hA hC hP h1) h2
  exact main m s0 s' (acct_init hinit) (chrono_init hd0 hinit)
    (pendiff_init hinit) hrun

/-- Witness for `pending_departure_iff_busy_of_pos_draws`: after one
iteration of the concrete scenario, station 0 is busy and has exactly one
pending departure event. -/
theorem pending_departure_iff_busy_of_pos_draws_witness :
    countStn 0 sim1.events = if 1 ≤ (getQ sim1 0).in_system then 1 else 0 :=
  pending_departure_iff_busy_of_pos_draws cfg1 orc1 d0one 0
    (fun _ _ => by norm_num [orc1]) (fun _ => by norm_num [orc1])
    (fun _ => by norm_num [d0one]) 1 sim0 sim1
    (by with_unfolding_all decide) (by with_unfolding_all decide)
    0 (getQ sim1 0) (by with_unfolding_all decide)

/-!
## The termination condition (claim C9)
-/

theorem foldl_min_le (c : ℕ) (cs : List ℕ) :
    ∀ x ∈ c :: cs, cs.foldl Nat.min c ≤ x := by
  induction cs generalizing c with
  | nil =>
    intro x hx
    have hx : x = c := List.mem_singleton.mp hx
    subst hx
    exact le_refl x
  | cons b bs ih =>
    intro x hx
    have hfold : (b :: bs).foldl Nat.min c = bs.foldl Nat.min (Nat.min c b) := rfl
    rw [hfold]
    have hmin : bs.foldl Nat.min (Nat.min c b) ≤ Nat.min c b :=
      ih (Nat.min c b) _ (List.mem_cons_self _ _)
    rcases List.mem_cons.mp hx with h1 | hx
    · subst h1
      exact le_trans hmin (Nat.min_le_left _ _)
    rcases List.mem_cons.mp hx with h1 | hx
    · subst h1
      exact le_trans hmin (Nat.min_le_right _ _)
    · exact ih (Nat.min c b) x (List.mem_cons_of_mem _ hx)

theorem minDep_le {l : List Queue} {k : ℕ} {q : Queue}
    (hq : l.get? k = some q) : minDep l ≤ q.departure_times.length := by
  have hmem : q.departure_times.length ∈ l.map (fun q => q.departure_times.length) :=
    List.mem_map_of_mem _ (List.get?_mem hq)
  unfold minDep
  cases hmap : l.map (fun q => q.departure_times.length) with
  | nil => rw [hmap] at hmem; simp at hmem
  | cons c cs =>
    rw [hmap] at hmem
    exact foldl_min_le c cs _ hmem

/-- **C9.**  The simulation loop (i) keeps iterating while the minimum
departure count over the stations is below the target — one more unit of
fuel executes one more `step`; (ii) stops exactly when the minimum reaches
the target — the state is returned unchanged; and (iii) whenever the loop
returns normally, every station has recorded at least `target` departures
(stations that passed the target earlier keep their surplus history; the
caller truncates it afterwards). -/
theorem loop_stops_iff_all_stations_reach_target
    (o : Oracle) (target fuel : ℕ) (s s' : SimState) :
    (loopSim o target fuel s = .ok s' →
      ∀ k q, s'.stations.get? k = some q → target ≤ q.departure_times.length) ∧
    (minDep s.stations < target →
      loopSim o target (fuel + 1) s = (step o s).bind (loopSim o target fuel)) ∧
    (target ≤ minDep s.stations → loopSim o target (fuel + 1) s = .ok s) := by
  have main : ∀ fuel s, loopSim o target fuel s = .ok s' →
      target ≤ minDep s'.stations := by
    intro fuel
    induction fuel with
    | zero => intro s h; simp [loopSim] at h
    | succ fuel ih =>
      intro s h
      unfold loopSim at h
      split at h
      · obtain ⟨s1, h1, h2⟩ := except_bind_ok h
        exact ih s1 h2
      · next hge =>
        obtain rfl : s = s' := by simpa using h
        omega
  refine ⟨?_, ?_, ?_⟩
  · intro h k q hq
    exact le_trans (main fuel s h) (minDep_le hq)
  · intro hlt
    unfold loopSim
    rw [if_pos hlt]
  · intro hge
    unfold loopSim
    rw [if_neg (by omega)]

/-- The final state of the concrete scenario (`wrapper` run to the target of
one departure). -/
def simF : SimState := okState (wrapper cfg1 orc1 d0one 0 5)

/-- Witness for `loop_stops_iff_all_stations_reach_target`: the concrete run
returns normally and station 0 has at least the target number of
departures. -/
theorem loop_stops_iff_all_stations_reach_target_witness :
    1 ≤ (getQ simF 0).departure_times.length :=
  (loop_stops_iff_all_stations_reach_target orc1 1 5 sim0 simF).1
    (by with_unfolding_all decide) 0 (getQ simF 0)
    (by with_unfolding_all decide)

/-!
## A falsy `time_next` schedules no event (claim C10)
-/

theorem stuck_deliver {o : Oracle} {t : ℚ} {job dest : ℕ} {s1 s' : SimState}
    {k : ℕ} {q : Queue}
    (hq : s1.stations.get? k = some q) (hbusy : 1 ≤ q.in_system)
    (hpend : countStn k s1.events = 0)
    (h : deliver o t job dest s1 = .ok s') :
    ∃ q', s'.stations.get? k = some q' ∧ 1 ≤ q'.in_system ∧
      countStn k s'.events = 0 ∧ q'.departure_times = q.departure_times := by
  rcases deliver_cases h with ⟨_, rfl⟩ | ⟨hne, q0, hq0, rfl⟩
  · exact ⟨q, hq, hbusy, hpend, rfl⟩
  · by_cases hk : k = dest
    · subst hk
      obtain rfl : q = q0 := Option.some_inj.mp (hq.symm.trans hq0)
      refine ⟨q.action_in (o.svc k) t job, ?_, ?_, ?_, ?_⟩
      · rw [updateStation_get?, if_pos rfl, hq0, Option.map_some']
      · rw [action_in_eq_busy _ _ _ _ hbusy]
        show (1:ℤ) ≤ q.in_system + 1
        omega
      · dsimp only
        rw [action_in_eq_busy _ _ _ _ hbusy]
        dsimp only
        rw [pushIf_none]
        exact hpend
      · rw [action_in_eq_busy _ _ _ _ hbusy]
    · have hstn : ¬(Node.stn dest = Node.stn k) := by
        intro hcon
        injection hcon with h2
        exact hk h2.symm
      refine ⟨q, ?_, hbusy, ?_, rfl⟩
      · rw [updateStation_get?, if_neg hk]
        exact hq
      · dsimp only
        rw [countStn_pushIf]
        simp [hpend, hstn]

theorem stuck_step {o : Oracle} {s s' : SimState} {k : ℕ} {q : Queue}
    (hq : s.stations.get? k = some q) (hbusy : 1 ≤ q.in_system)
    (hpend : countStn k s.events = 0) (h : step o s = .ok s') :
    ∃ q', s'.stations.get? k = some q' ∧ 1 ≤ q'.in_system ∧
      countStn k s'.events = 0 ∧ q'.departure_times = q.departure_times := by
  obtain ⟨e, rest, hpop, hcase⟩ := step_cases h
  obtain ⟨hmem, hperm, hmin⟩ := popMin_eq_some hpop
  rcases hcase with ⟨src2, hnode, hsrcout, hdel⟩ | ⟨k0, q0, q2, hnode, hq0, hout, hdel⟩
  · have hrest : countStn k rest = 0 := by
      have hp := @countStn_perm k _ _ hperm
      rw [countStn_cons, hnode, if_neg (by simp), hpend] at hp
      omega
    have hcnt : countStn k (pushIf (some src2.time_next) src2.next_job
        .src rest) = 0 := by
      rw [countStn_pushIf, hrest]
      simp
    have hq1 : ({ s with
        src := src2, clock := e.t,
        events := pushIf (some src2.time_next) src2.next_job .src rest }
          : SimState).stations.get? k = some q := hq
    exact stuck_deliver hq1 hbusy hcnt hdel
  · have hk0 : k0 ≠ k := by
      intro hcon
      subst hcon
      have := countStn_pos_of_mem hmem hnode
      omega
    have hstn : ¬(Node.stn k0 = Node.stn k) := by
      intro hcon
      injection hcon with h2
      exact hk0 h2
    have hrest : countStn k rest = 0 := by
      have hp := @countStn_perm k _ _ hperm
      rw [countStn_cons, hnode, if_neg hstn, hpend] at hp
      omega
    have hq1 : ({ s with
        stations := updateStation s.stations k0 (fun _ => q2), clock := e.t,
        events := pushIf q2.time_next (q2.next_job.getD 0) (.stn k0) rest }
          : SimState).stations.get? k = some q := by
      show (updateStation s.stations k0 (fun _ => q2)).get? k = some q
      rw [updateStation_get?, if_neg (fun hcon => hk0 hcon.symm)]
      exact hq
    have hcnt : countStn k (pushIf q2.time_next (q2.next_job.getD 0)
        (.stn k0) rest) = 0 := by
      rw [countStn_pushIf, hrest]
      simp [hstn]
    exact stuck_deliver hq1 hbusy hcnt hdel

theorem stuck_stepN {o : Oracle} {m : ℕ} {s s' : SimState} {k : ℕ} {q : Queue}
    (hq : s.stations.get? k = some q) (hbusy : 1 ≤ q.in_system)
    (hpend : countStn k s.events = 0) (hrun : stepN o m s = .ok s') :
    ∃ q', s'.stations.get? k = some q' ∧ 1 ≤ q'.in_system ∧
      countStn k s'.events = 0 ∧ q'.departure_times = q.departure_times := by
  induction m generalizing s q with
  | zero =>
    simp only [stepN, Except.ok.injEq] at hrun
    exact ⟨q, hrun ▸ hq, hbusy, hrun ▸ hpend, rfl⟩
  | succ m ih =>
    obtain ⟨s1, h1, h2⟩ := except_bind_ok hrun
    obtain ⟨q1, hq1, hb1, hp1, hd1⟩ := stuck_step hq hbusy hpend h1
    obtain ⟨q', hq', hb', hp', hd'⟩ := ih hq1 hb1 hp1 h2
    exact ⟨q', hq', hb', hp', hd'.trans hd1⟩

/-- **C10.**  (i) After dispatching a node, the loop schedules a follow-up
event for that node iff the node's `time_next` is neither `None` nor exactly
`0.0` — `pushIf` drops the event in precisely those two cases.  (ii) As a
consequence, a station that is busy (`in_system ≥ 1`) with no pending
departure event — the state produced by a `0.0` finish time, cf.
`pending_departure_iff_busy_fails_on_zero_service` — stays that way forever:
over any number of further iterations no departure event for it ever
appears and its departure history never grows, so the lost departure never
occurs. -/
theorem zero_time_next_schedules_no_event
    (o : Oracle) (s : SimState) (k : ℕ) (q : Queue) (m : ℕ) (s' : SimState)
    (hq : s.stations.get? k = some q) (hbusy : 1 ≤ q.in_system)
    (hpend : countStn k s.events = 0) (hrun : stepN o m s = .ok s') :
    (∀ tn j ν evs, pushIf tn j ν evs
        = if tn = none ∨ tn = some 0 then evs
          else { t := tn.getD 0, j := j, node := ν } :: evs) ∧
    ∃ q', s'.stations.get? k = some q' ∧ 1 ≤ q'.in_system ∧
      countStn k s'.events = 0 ∧ q'.departure_times = q.departure_times := by
  constructor
  · intro tn j ν evs
    cases tn with
    | none => simp [pushIf, truthy]
    | some x =>
      by_cases hx : x = 0
      · subst hx
        simp [pushIf, truthy]
      · simp [pushIf, truthy, hx]
  · exact stuck_stepN hq hbusy hpend hrun

/-- The zero-draw oracle of the stuck scenario (service draws 0). -/
def orcZ : Oracle := ⟨fun _ => 1, fun _ => 0, fun _ _ => 0, fun _ _ => 0⟩

/-- The stuck state: one step of the zero-draw scenario (station 0 busy, no
pending departure event). -/
def simZ : SimState := okState ((initState cfg1 (fun _ => 0) 0).bind (step orcZ))

/-- Two further iterations from the stuck state. -/
def simZ2 : SimState := okState (stepN orcZ 2 simZ)

/-- Witness for `zero_time_next_schedules_no_event`: two iterations after the
stuck state, station 0 still has no pending departure event and is still
busy. -/
theorem zero_time_next_schedules_no_event_witness :
    countStn 0 simZ2.events = 0 ∧ 1 ≤ (getQ simZ2 0).in_system := by
  obtain ⟨q', hq', hb', hp', hd'⟩ :=
    (zero_time_next_schedules_no_event orcZ simZ 0 (getQ simZ 0) 2 simZ2
      (by with_unfolding_all decide) (by with_unfolding_all decide)
      (by with_unfolding_all decide) (by with_unfolding_all decide)).2
  refine ⟨hp', ?_⟩
  have hgq : getQ simZ2 0 = q' := by
    rw [getQ, hq']
    rfl
  rw [hgq]
  exact hb'
